import Mathlib

/-!
Shallow embedding of the `LinearCombination` operator store from
`pennylane/ops/op_math/linear_combination.py`, together with theorems
settling the frozen claims about it.

Coefficients are modelled as complex rationals (`CQ`), operands as
single-qubit Pauli-like factors (`Atom`) or tensor products of them
(`Op`), matching the store shapes the claims quantify over.
-/

/-- Complex numbers with rational components; the scalar type used for
coefficients and matrix entries of the embedded linear combinations. -/
structure CQ where
  re : ℚ
  im : ℚ
deriving DecidableEq, Repr

namespace CQ

theorem ext_iff {a b : CQ} : a = b ↔ a.re = b.re ∧ a.im = b.im := by
  cases a; cases b; simp

instance : Zero CQ := ⟨⟨0, 0⟩⟩
instance : One CQ := ⟨⟨1, 0⟩⟩
instance : Add CQ := ⟨fun a b => ⟨a.re + b.re, a.im + b.im⟩⟩
instance : Neg CQ := ⟨fun a => ⟨-a.re, -a.im⟩⟩
instance : Mul CQ := ⟨fun a b => ⟨a.re * b.re - a.im * b.im, a.re * b.im + a.im * b.re⟩⟩

theorem zero_def : (0 : CQ) = ⟨0, 0⟩ := rfl
theorem one_def : (1 : CQ) = ⟨1, 0⟩ := rfl
theorem add_def (a b : CQ) : a + b = ⟨a.re + b.re, a.im + b.im⟩ := rfl
theorem neg_def (a : CQ) : -a = ⟨-a.re, -a.im⟩ := rfl
theorem mul_def (a b : CQ) : a * b = ⟨a.re * b.re - a.im * b.im, a.re * b.im + a.im * b.re⟩ := rfl

instance commRing : CommRing CQ where
  add_assoc a b c := by simp [add_def, ext_iff]; constructor <;> ring
  zero_add a := by simp [add_def, zero_def, ext_iff]
  add_zero a := by simp [add_def, zero_def, ext_iff]
  add_comm a b := by simp [add_def, ext_iff]; constructor <;> ring
  mul_assoc a b c := by simp [mul_def, ext_iff]; constructor <;> ring
  one_mul a := by simp [mul_def, one_def, ext_iff]
  mul_one a := by simp [mul_def, one_def, ext_iff]
  left_distrib a b c := by simp [mul_def, add_def, ext_iff]; constructor <;> ring
  right_distrib a b c := by simp [mul_def, add_def, ext_iff]; constructor <;> ring
  mul_comm a b := by simp [mul_def, ext_iff]; constructor <;> ring
  zero_mul a := by simp [mul_def, zero_def, ext_iff]
  mul_zero a := by simp [mul_def, zero_def, ext_iff]
  neg_add_cancel a := by simp [add_def, neg_def, zero_def, ext_iff]
  nsmul := nsmulRec
  zsmul := zsmulRec

end CQ

/-- Single-qubit Pauli-like factor kinds (`PauliX`, `PauliY`, `PauliZ`,
`Identity` in the source's `OBS_MAP`). -/
inductive PKind | X | Y | Z | I
deriving DecidableEq, Repr

/-- A single-qubit Pauli-like factor acting on one wire; the atomic operand
shape `{name, wires, parameters}` of the data model (the parameter tuple of
these operators is empty). -/
structure Atom where
  kind : PKind
  wire : Nat
deriving DecidableEq, Repr

/-- An operand of a term: either an atomic observable or a `Tensor` product
of atomic single-qubit factors. -/
inductive Op
  | atomic : Atom → Op
  | tensor : List Atom → Op
deriving DecidableEq, Repr

namespace Op

/-- The factor list `Tensor(op).obs` of an operand: wrapping an atomic
observable in a `Tensor` yields the one-element factor list. -/
def factors : Op → List Atom
  | atomic a => [a]
  | tensor fs => fs

end Op

/-- Duplicate removal keeping the first occurrence, as `Wires.all_wires`
does when concatenating the per-factor wire lists. -/
def dedupF (l : List Nat) : List Nat :=
  l.foldl (fun acc w => if w ∈ acc then acc else acc ++ [w]) []

/-- The wires of an operand: the per-factor wires in order of first
appearance, duplicates removed (`Tensor.wires`). -/
def opWires (op : Op) : List Nat :=
  dedupF ((op.factors).map Atom.wire)

/-- Identity key of an atomic factor, the `(name, wires)` pair used by the
order-independent comparison (the parameter tuple is always empty here). -/
def atomKey (a : Atom) : PKind × Nat := (a.kind, a.wire)

/-- Non-identity factors of a factor list (`Tensor.non_identity_obs`). -/
def nonIdentity (fs : List Atom) : List Atom :=
  fs.filter (fun a => a.kind ≠ PKind.I)

/-- The frozenset of identity keys of the non-identity factors of an
operand, used by `Observable.compare` via `_obs_data`; represented as a
`Finset` so that set equality is Python's frozenset equality. -/
def cls (op : Op) : Finset (PKind × Nat) :=
  ((nonIdentity op.factors).map atomKey).toFinset

/-- Structural comparison `op.compare(o)` between (tensor products of)
observables: equality of the frozensets of non-identity factor keys. -/
def compareB (a b : Op) : Bool :=
  decide (cls a = cls b)

/-- Wrap an operand as a `Tensor`, as `simplify` does
(`op if isinstance(op, Tensor) else Tensor(op)`). -/
def toTensor (op : Op) : Op :=
  match op with
  | Op.atomic a => Op.tensor [a]
  | t => t

/-- The `Tensor.prune` operation: drop identity factors; an all-identity
tensor collapses to a single identity on the tensor's first wire, a
single surviving factor is returned atomically. -/
def prune (op : Op) : Op :=
  match nonIdentity op.factors with
  | [] => Op.atomic ⟨PKind.I, (opWires op).headD 0⟩
  | [a] => Op.atomic a
  | fs => Op.tensor fs

/-- First index in a list satisfying a predicate, the `next((j for j, o in
enumerate(new_ops) if op.compare(o)), None)` search of `simplify`. -/
def findIdxQ (p : α → Bool) : List α → Option Nat
  | [] => none
  | x :: xs => if p x then some 0 else (findIdxQ p xs).map (· + 1)

/-- The near-zero test `np.isclose(c, 0.0)` (absolute tolerance `1e-8`,
relative part vanishing against 0), via the squared magnitude. -/
def isCloseZero (c : CQ) : Bool :=
  decide (c.re * c.re + c.im * c.im ≤ (1 / 100000000 : ℚ) * (1 / 100000000 : ℚ))

/-- A term store: parallel coefficient/operand sequences plus the optional
grouping-indices cache (`_coeffs`, `_ops`, `_grouping_indices`). -/
structure LinearCombination where
  coeffs : List CQ
  ops : List Op
  grouping : Option (List (List Nat))
deriving DecidableEq, Repr

namespace LinearCombination

/-- The body of the `simplify` loop: scan the input terms, merging each
term into the first structurally-equal accumulated operand (deleting the
entry when the merged coefficient is numerically close to zero), otherwise
appending the pruned operand with its coefficient. -/
def simplifyGo : List (CQ × Op) → List CQ → List Op → List CQ × List Op
  | [], cs, os => (cs, os)
  | (c, op) :: rest, cs, os =>
    let t := toTensor op
    match findIdxQ (fun o => compareB t o) os with
    | some ind =>
      let cs' := cs.set ind (cs.getD ind 0 + c)
      if isCloseZero (cs'.getD ind 0) then
        simplifyGo rest (cs'.eraseIdx ind) (os.eraseIdx ind)
      else
        simplifyGo rest cs' os
    | none => simplifyGo rest (cs ++ [c]) (os ++ [prune t])

/-- The `simplify` method: combine like terms in place and reset the
grouping cache to `None`. -/
def simplify (lc : LinearCombination) : LinearCombination :=
  ⟨(simplifyGo (lc.coeffs.zip lc.ops) [] []).1,
   (simplifyGo (lc.coeffs.zip lc.ops) [] []).2, none⟩

end LinearCombination

namespace LinearCombination

/-- Instrumented replay of the `simplify` loop that reports whether any
near-zero deletion (`del new_coeffs[ind]; del new_ops[ind]`) fires. -/
def simplifyDropped : List (CQ × Op) → List CQ → List Op → Bool
  | [], _, _ => false
  | (c, op) :: rest, cs, os =>
    let t := toTensor op
    match findIdxQ (fun o => compareB t o) os with
    | some ind =>
      let cs' := cs.set ind (cs.getD ind 0 + c)
      if isCloseZero (cs'.getD ind 0) then true
      else simplifyDropped rest cs' os
    | none => simplifyDropped rest (cs ++ [c]) (os ++ [prune t])

/-- Whether a store's `simplify` run performs no near-zero deletion. -/
def noDropRun (lc : LinearCombination) : Bool :=
  !(simplifyDropped (lc.coeffs.zip lc.ops) [] [])

/-- Reference merge loop following the spec's words for the Simplifier
contract: each term is merged into the first structurally-equal
accumulated operand by summing coefficients (never dropping a term), and
a new operand class appends its pruned representative, so surviving terms
keep the insertion order of first occurrence. -/
def mergedGo : List (CQ × Op) → List CQ → List Op → List CQ × List Op
  | [], cs, os => (cs, os)
  | (c, op) :: rest, cs, os =>
    let t := toTensor op
    match findIdxQ (fun o => compareB t o) os with
    | some ind => mergedGo rest (cs.set ind (cs.getD ind 0 + c)) os
    | none => mergedGo rest (cs ++ [c]) (os ++ [prune t])

/-- Reference operand accumulation following the spec's ordering clause:
the pruned representative of each operand class, in insertion order of
the class's first occurrence. -/
def firstRepsGo : List Op → List Op → List Op
  | [], os => os
  | op :: rest, os =>
    match findIdxQ (fun o => compareB (toTensor op) o) os with
    | some _ => firstRepsGo rest os
    | none => firstRepsGo rest (os ++ [prune (toTensor op)])

/-- First-occurrence representatives of the operand classes of a list. -/
def firstReps (ops : List Op) : List Op := firstRepsGo ops []

theorem simplifyGo_eq_mergedGo :
    ∀ (terms : List (CQ × Op)) (cs : List CQ) (os : List Op),
      simplifyDropped terms cs os = false →
      simplifyGo terms cs os = mergedGo terms cs os := by
  intro terms
  induction terms with
  | nil => intro cs os _; rfl
  | cons p rest ih =>
    intro cs os h
    obtain ⟨c, op⟩ := p
    simp only [simplifyGo, simplifyDropped, mergedGo] at *
    cases hf : findIdxQ (fun o => compareB (toTensor op) o) os with
    | none =>
      simp only [hf] at h ⊢
      exact ih _ _ h
    | some ind =>
      simp only [hf] at h ⊢
      split at h
      · simp at h
      · next hz =>
        rw [if_neg hz]
        exact ih _ _ h

theorem mergedGo_snd :
    ∀ (terms : List (CQ × Op)) (cs : List CQ) (os : List Op),
      (mergedGo terms cs os).2 = firstRepsGo (terms.map Prod.snd) os := by
  intro terms
  induction terms with
  | nil => intro cs os; rfl
  | cons p rest ih =>
    intro cs os
    obtain ⟨c, op⟩ := p
    simp only [mergedGo, List.map_cons, firstRepsGo]
    cases hf : findIdxQ (fun o => compareB (toTensor op) o) os with
    | none => simp only [hf]; exact ih _ _
    | some ind => simp only [hf]; exact ih _ _

end LinearCombination

theorem cls_toTensor (op : Op) : cls (toTensor op) = cls op := by
  cases op <;> rfl

theorem nonIdentity_idem (fs : List Atom) : nonIdentity (nonIdentity fs) = nonIdentity fs := by
  simp [nonIdentity, List.filter_filter]

theorem cls_prune (op : Op) : cls (prune op) = cls op := by
  unfold prune
  cases h : nonIdentity op.factors with
  | nil =>
    have hop : cls op = ∅ := by unfold cls; rw [h]; rfl
    rw [hop]
    simp [cls, Op.factors, nonIdentity]
  | cons a fs =>
    cases fs with
    | nil =>
      have ha : a ∈ nonIdentity op.factors := by rw [h]; exact List.mem_singleton_self a
      have ha' : a.kind ≠ PKind.I := by
        have := List.of_mem_filter ha
        simpa using this
      have hop : cls op = {atomKey a} := by unfold cls; rw [h]; rfl
      rw [hop]
      simp [cls, Op.factors, nonIdentity, ha']
    | cons b fs' =>
      show cls (Op.tensor (a :: b :: fs')) = cls op
      unfold cls
      rw [show (Op.tensor (a :: b :: fs')).factors = a :: b :: fs' from rfl, ← h, nonIdentity_idem]

/-- Sample operands used by concrete witnesses and counterexamples. -/
def opX0 : Op := Op.atomic ⟨PKind.X, 0⟩

def opY1 : Op := Op.atomic ⟨PKind.Y, 1⟩

def opY2 : Op := Op.atomic ⟨PKind.Y, 2⟩

def opZ0 : Op := Op.atomic ⟨PKind.Z, 0⟩

def opZ1 : Op := Op.atomic ⟨PKind.Z, 1⟩

def opX0I1 : Op := Op.tensor [⟨PKind.X, 0⟩, ⟨PKind.I, 1⟩]

/-- A Python scalar passed to `__mul__`/`__imul__`: the `isinstance(a,
(int, float))` dispatch splits plain ints and floats from every other
type, which produces the `NotImplemented` sentinel. -/
inductive PyScalar
  | int : Int → PyScalar
  | float : ℚ → PyScalar
  | other : PyScalar
deriving DecidableEq, Repr

/-- The numeric value of an accepted scalar as a coefficient. -/
def PyScalar.val : PyScalar → CQ
  | int n => ⟨(n : ℚ), 0⟩
  | float q => ⟨q, 0⟩
  | other => 0

namespace LinearCombination

/-- The in-place scalar multiplication `__imul__`: for a plain int/float
scalar, replace `_coeffs` by the scaled coefficients and return `self`
(every other field untouched); otherwise `NotImplemented` (`none`). -/
def imul (lc : LinearCombination) (a : PyScalar) : Option LinearCombination :=
  match a with
  | PyScalar.other => none
  | s => some { lc with coeffs := lc.coeffs.map (fun c => s.val * c) }

/-- The scalar multiplication `__mul__`: for a plain int/float scalar,
build a NEW store from the scaled coefficients and a copy of the operand
list (via `qml.dot` without the simplify flag, so no simplification and a
fresh, absent grouping cache); otherwise `NotImplemented` (`none`). -/
def mul (lc : LinearCombination) (a : PyScalar) : Option LinearCombination :=
  match a with
  | PyScalar.other => none
  | s => some ⟨lc.coeffs.map (fun c => s.val * c), lc.ops, none⟩

/-- The `_obs_data` serialization: the set of `(coefficient, frozenset of
factor keys)` pairs; a `Tensor` operand contributes its non-identity
factor keys, an atomic operand contributes its own key unfiltered. -/
def obsData (lc : LinearCombination) : Finset (CQ × Finset (PKind × Nat)) :=
  ((lc.coeffs.zip lc.ops).map (fun p =>
    (p.1, match p.2 with
          | Op.atomic a => {atomKey a}
          | Op.tensor fs => ((nonIdentity fs).map atomKey).toFinset))).toFinset

/-- The `compare` method between two stores, with the in-place mutation of
both made explicit: it simplifies `self` and `other` in place and then
tests `_obs_data` set equality; the returned triple is (result, post-state
of `self`, post-state of `other`). -/
def compare (A B : LinearCombination) : Bool × LinearCombination × LinearCombination :=
  let A' := A.simplify
  let B' := B.simplify
  (decide (A'.obsData = B'.obsData), A', B')

/-- Insert a number into a sorted list (ascending). -/
def insortNat (x : Nat) : List Nat → List Nat
  | [] => [x]
  | y :: ys => if x ≤ y then x :: y :: ys else y :: insortNat x ys

/-- Sort a list of wire labels ascending, as `Wires.all_wires(..., sort=True)`. -/
def sortNat (l : List Nat) : List Nat := l.foldr insortNat []

/-- The sorted union of the wires of all operands (`self.wires`). -/
def wiresList (lc : LinearCombination) : List Nat :=
  sortNat (dedupF ((lc.ops.map opWires).flatten))

end LinearCombination

/-- Error kinds of the store's ValueError-class failures. -/
inductive LCError
  | shapeMismatch
  | incompatibleWires
  | incompleteWireOrder
deriving DecidableEq, Repr

/-- The `LinearCombination` constructor reached through `qml.dot`: checks
that the coefficient count matches the operand count (else the
ShapeMismatch ValueError) and optionally simplifies.  Modelled from the
spec for the `qml.dot` wrapper, which is not under `src/`; the shape check
and the simplify flag follow `LinearCombination.__init__`. -/
def dot (coeffs : List CQ) (ops : List Op) (simplifyFlag : Bool) :
    Except LCError LinearCombination :=
  if coeffs.length ≠ ops.length then Except.error LCError.shapeMismatch
  else
    let lc : LinearCombination := ⟨coeffs, ops, none⟩
    Except.ok (if simplifyFlag then lc.simplify else lc)

/-- The tensor product `Tensor(t0, t1)` of two operands: the `Tensor`
constructor flattens its arguments into the concatenated factor list. -/
def tensorProd (a b : Op) : Op := Op.tensor (a.factors ++ b.factors)

/-- The Kronecker product `qml.math.kron` of two coefficient vectors:
all pairwise products, left factor major. -/
def kronVec (a b : List CQ) : List CQ :=
  (a.map (fun x => b.map (fun y => x * y))).flatten

/-- All pairwise tensor products `itertools.product(ops1, ops2)`, left
operand major. -/
def pairTensors (a b : List Op) : List Op :=
  (a.map (fun o1 => b.map (fun o2 => tensorProd o1 o2))).flatten

namespace LinearCombination

/-- The wires shared by two stores (`Wires.shared_wires`). -/
def sharedWires (A B : LinearCombination) : List Nat :=
  A.wiresList.filter (fun w => w ∈ B.wiresList)

/-- The tensor product `__matmul__` of two stores: fails with the
IncompatibleWires ValueError when the stores share a wire, otherwise
builds the Kronecker-product coefficients and all pairwise operand tensor
products and returns the simplified new store. -/
def matmulLC (A B : LinearCombination) : Except LCError LinearCombination :=
  if (sharedWires A B).length > 0 then Except.error LCError.incompatibleWires
  else dot (kronVec A.coeffs B.coeffs) (pairTensors A.ops B.ops) true

end LinearCombination

/-- Claim C2 (counterexample): two structurally-equal terms whose
coefficients sum to zero are not replaced by a single term with the summed
coefficient: `simplify` deletes the merged entry outright, leaving no term
for the group at all. -/
theorem C2_single_term_counterexample :
    LinearCombination.simplify ⟨[⟨1, 0⟩, ⟨-1, 0⟩], [opX0, opX0], none⟩ =
      ⟨[], [], none⟩ ∧
    (LinearCombination.simplify ⟨[⟨1, 0⟩, ⟨-1, 0⟩], [opX0, opX0], none⟩).ops.length ≠ 1 := by
  have h1 : compareB (toTensor opX0) (prune (toTensor opX0)) = true := by decide
  have hs : LinearCombination.simplify ⟨[⟨1, 0⟩, ⟨-1, 0⟩], [opX0, opX0], none⟩ =
      ⟨[], [], none⟩ := by
    unfold LinearCombination.simplify
    norm_num [LinearCombination.simplifyGo, findIdxQ, h1, isCloseZero, CQ.add_def]
  exact ⟨hs, by rw [hs]; decide⟩

/-- Claim C2 (amended): whenever the `simplify` run performs no near-zero
deletion, each maximal group of terms with structurally-equal operands is
replaced by a single term whose coefficient is the sum of the group's
coefficients and whose operand is the pruned representative of the group's
first occurrence, exactly as computed by the reference merge loop
`mergedGo`; scenario 2 of the claim is the witness below. -/
theorem C2_simplify_merges (lc : LinearCombination)
    (h : LinearCombination.noDropRun lc = true) :
    lc.simplify =
      ⟨(LinearCombination.mergedGo (lc.coeffs.zip lc.ops) [] []).1,
       (LinearCombination.mergedGo (lc.coeffs.zip lc.ops) [] []).2, none⟩ := by
  have h' : LinearCombination.simplifyDropped (lc.coeffs.zip lc.ops) [] [] = false := by
    simpa [LinearCombination.noDropRun] using h
  unfold LinearCombination.simplify
  rw [LinearCombination.simplifyGo_eq_mergedGo _ _ _ h']

/-- Claim C2 (witness, scenario 2): `coeffs=[1,1,-2]`,
`ops=[Y(2), X(0)@I(1), X(0)]` simplifies to exactly two terms, coefficient
1 on Y(2) followed by coefficient -1 on X(0). -/
theorem C2_simplify_merges_witness :
    LinearCombination.noDropRun ⟨[⟨1, 0⟩, ⟨1, 0⟩, ⟨-2, 0⟩], [opY2, opX0I1, opX0], none⟩ = true ∧
    LinearCombination.simplify ⟨[⟨1, 0⟩, ⟨1, 0⟩, ⟨-2, 0⟩], [opY2, opX0I1, opX0], none⟩ =
      ⟨[⟨1, 0⟩, ⟨-1, 0⟩], [opY2, opX0], none⟩ := by
  have h1 : compareB (toTensor opX0I1) opY2 = false := by decide
  have h2 : compareB (toTensor opX0) opY2 = false := by decide
  have h3 : compareB (toTensor opX0) opX0 = true := by decide
  have h4 : prune (toTensor opY2) = opY2 := by decide
  have h5 : prune (toTensor opX0I1) = opX0 := by decide
  have hnd : LinearCombination.noDropRun
      ⟨[⟨1, 0⟩, ⟨1, 0⟩, ⟨-2, 0⟩], [opY2, opX0I1, opX0], none⟩ = true := by
    norm_num [LinearCombination.noDropRun, LinearCombination.simplifyDropped, findIdxQ,
      h1, h2, h3, h4, h5, isCloseZero, CQ.add_def]
  refine ⟨hnd, ?_⟩
  rw [C2_simplify_merges _ hnd]
  norm_num [LinearCombination.mergedGo, findIdxQ, h1, h2, h3, h4, h5, CQ.add_def]

/-- Claim C6 (counterexample): a term whose operand matches no other term
is never checked against the near-zero tolerance, so a lone near-zero
coefficient (1e-9, well within the 1e-8 tolerance) survives `simplify`
unchanged, contradicting the claim that every near-zero group (including
singletons) is dropped. -/
theorem C6_singleton_counterexample :
    isCloseZero ⟨1 / 1000000000, 0⟩ = true ∧
    (LinearCombination.simplify ⟨[⟨1 / 1000000000, 0⟩], [opX0], none⟩).coeffs =
      [⟨1 / 1000000000, 0⟩] := by
  constructor
  · norm_num [isCloseZero]
  · unfold LinearCombination.simplify
    norm_num [LinearCombination.simplifyGo, findIdxQ]

/-- Claim C6 (amended): a term is dropped exactly when a merge leaves its
running coefficient within the near-zero tolerance; in the two-term case,
structurally-equal operands whose coefficients sum to a near-zero value
leave an emptied store whose coefficient sequence is the canonical empty
sequence (not an error), and the grouping cache is absent. -/
theorem C6_merge_drop_to_empty (c1 c2 : CQ) (op1 op2 : Op)
    (g : Option (List (List Nat)))
    (hop : cls op1 = cls op2) (hz : isCloseZero (c1 + c2) = true) :
    LinearCombination.simplify ⟨[c1, c2], [op1, op2], g⟩ = ⟨[], [], none⟩ := by
  have hcmp : compareB (toTensor op2) (prune (toTensor op1)) = true := by
    simp [compareB, cls_toTensor, cls_prune, hop]
  unfold LinearCombination.simplify
  simp [LinearCombination.simplifyGo, findIdxQ, hcmp, hz]

/-- Claim C6 (witness): coefficients 1 and -1 on the structurally-equal
operands X(0)@I(1) and X(0) cancel and the store empties. -/
theorem C6_merge_drop_to_empty_witness :
    cls opX0I1 = cls opX0 ∧ isCloseZero (⟨1, 0⟩ + ⟨-1, 0⟩) = true ∧
    LinearCombination.simplify ⟨[⟨1, 0⟩, ⟨-1, 0⟩], [opX0I1, opX0], some [[0], [1]]⟩ =
      ⟨[], [], none⟩ := by
  have hcls : cls opX0I1 = cls opX0 := by decide
  have hz : isCloseZero ((⟨1, 0⟩ : CQ) + ⟨-1, 0⟩) = true := by
    norm_num [isCloseZero, CQ.add_def]
  exact ⟨hcls, hz, C6_merge_drop_to_empty _ _ _ _ _ hcls hz⟩

/-- Claim C7 (counterexample): when a group's running coefficient passes
through zero, a later term with the same operand is re-appended at the
back: `coeffs=[1,-1,1,1]`, `ops=[X(0),X(0),Y(1),X(0)]` survives as
`[Y(1), X(0)]`, not in the first-occurrence order `[X(0), Y(1)]`. -/
theorem C7_order_counterexample :
    (LinearCombination.simplify
        ⟨[⟨1, 0⟩, ⟨-1, 0⟩, ⟨1, 0⟩, ⟨1, 0⟩], [opX0, opX0, opY1, opX0], none⟩).ops =
      [opY1, opX0] ∧ opY1 ≠ opX0 := by
  have h1 : compareB (toTensor opX0) opX0 = true := by decide
  have h2 : compareB (toTensor opY1) opX0 = false := by decide
  have h3 : compareB (toTensor opX0) opY1 = false := by decide
  have h4 : prune (toTensor opX0) = opX0 := by decide
  have h5 : prune (toTensor opY1) = opY1 := by decide
  constructor
  · unfold LinearCombination.simplify
    norm_num [LinearCombination.simplifyGo, findIdxQ, h1, h2, h3, h4, h5, isCloseZero,
      CQ.add_def]
  · decide

/-- Claim C7 (amended): when the `simplify` run performs no near-zero
deletion, the surviving terms keep the insertion order of the first
occurrence of each operand class among the originals. -/
theorem C7_stable_order (lc : LinearCombination)
    (hlen : lc.coeffs.length = lc.ops.length)
    (h : LinearCombination.noDropRun lc = true) :
    lc.simplify.ops = LinearCombination.firstReps lc.ops := by
  have h' : LinearCombination.simplifyDropped (lc.coeffs.zip lc.ops) [] [] = false := by
    simpa [LinearCombination.noDropRun] using h
  unfold LinearCombination.simplify
  show (LinearCombination.simplifyGo (lc.coeffs.zip lc.ops) [] []).2 =
    LinearCombination.firstReps lc.ops
  rw [LinearCombination.simplifyGo_eq_mergedGo _ _ _ h', LinearCombination.mergedGo_snd]
  rw [List.map_snd_zip _ _ (le_of_eq hlen.symm)]
  rfl

/-- Claim C7 (witness): a no-drop store with a duplicated operand keeps
first-occurrence order. -/
theorem C7_stable_order_witness :
    LinearCombination.noDropRun ⟨[⟨1, 0⟩, ⟨1, 0⟩, ⟨1, 0⟩], [opX0, opY1, opX0], none⟩ = true ∧
    (LinearCombination.simplify ⟨[⟨1, 0⟩, ⟨1, 0⟩, ⟨1, 0⟩], [opX0, opY1, opX0], none⟩).ops =
      [opX0, opY1] := by
  have h1 : compareB (toTensor opY1) opX0 = false := by decide
  have h2 : compareB (toTensor opX0) opX0 = true := by decide
  have h3 : compareB (toTensor opX0) opY1 = false := by decide
  have h4 : prune (toTensor opX0) = opX0 := by decide
  have h5 : prune (toTensor opY1) = opY1 := by decide
  have hnd : LinearCombination.noDropRun
      ⟨[⟨1, 0⟩, ⟨1, 0⟩, ⟨1, 0⟩], [opX0, opY1, opX0], none⟩ = true := by
    norm_num [LinearCombination.noDropRun, LinearCombination.simplifyDropped, findIdxQ,
      h1, h2, h3, h4, h5, isCloseZero, CQ.add_def]
  refine ⟨hnd, ?_⟩
  rw [C7_stable_order _ (by decide) hnd]
  decide

/-- Claim C4: `simplify` always resets the grouping cache to absent, while
in-place scalar multiplication by an int/float keeps the operand sequence
and the grouping cache and only scales the coefficients. -/
theorem C4_simplify_resets_imul_preserves (lc : LinearCombination)
    (hg : lc.grouping.isSome = true) (n : Int) (q : ℚ) :
    lc.simplify.grouping = none ∧
    lc.imul (PyScalar.int n) =
      some ⟨lc.coeffs.map (fun c => (PyScalar.int n).val * c), lc.ops, lc.grouping⟩ ∧
    lc.imul (PyScalar.float q) =
      some ⟨lc.coeffs.map (fun c => (PyScalar.float q).val * c), lc.ops, lc.grouping⟩ :=
  ⟨rfl, rfl, rfl⟩

/-- Claim C4 (witness): a store with a populated cache, scaled by the int 2
and the float 1/2. -/
theorem C4_simplify_resets_imul_preserves_witness :
    (⟨[⟨1, 0⟩], [opX0], some [[0]]⟩ : LinearCombination).grouping.isSome = true ∧
    ((⟨[⟨1, 0⟩], [opX0], some [[0]]⟩ : LinearCombination).simplify.grouping = none ∧
     (⟨[⟨1, 0⟩], [opX0], some [[0]]⟩ : LinearCombination).imul (PyScalar.int 2) =
       some ⟨[⟨1, 0⟩].map (fun c => (PyScalar.int 2).val * c), [opX0], some [[0]]⟩ ∧
     (⟨[⟨1, 0⟩], [opX0], some [[0]]⟩ : LinearCombination).imul (PyScalar.float (1 / 2)) =
       some ⟨[⟨1, 0⟩].map (fun c => (PyScalar.float (1 / 2)).val * c), [opX0], some [[0]]⟩) :=
  ⟨rfl, C4_simplify_resets_imul_preserves ⟨[⟨1, 0⟩], [opX0], some [[0]]⟩ rfl 2 (1 / 2)⟩

/-- Claim C9 (counterexample): `compare` is not read-only: comparing a
store with a populated grouping cache against another store resets the
first store's grouping cache (its simplified post-state has `None` there,
while the pre-state cache was populated). -/
theorem C9_compare_mutates_counterexample :
    ((⟨[⟨1, 0⟩, ⟨1, 0⟩], [opX0, opX0], some [[0], [1]]⟩ : LinearCombination).compare
        ⟨[⟨2, 0⟩], [opX0], none⟩).2.1.grouping = none ∧
    (⟨[⟨1, 0⟩, ⟨1, 0⟩], [opX0, opX0], some [[0], [1]]⟩ : LinearCombination).grouping ≠
      none ∧
    ((⟨[⟨1, 0⟩, ⟨1, 0⟩], [opX0, opX0], some [[0], [1]]⟩ : LinearCombination).compare
        ⟨[⟨2, 0⟩], [opX0], none⟩).2.1.coeffs.length = 1 ∧
    (⟨[⟨1, 0⟩, ⟨1, 0⟩], [opX0, opX0], some [[0], [1]]⟩ :
      LinearCombination).coeffs.length = 2 := by
  have h1 : compareB (toTensor opX0) opX0 = true := by decide
  have h4 : prune (toTensor opX0) = opX0 := by decide
  refine ⟨rfl, by decide, ?_, rfl⟩
  show (⟨[⟨1, 0⟩, ⟨1, 0⟩], [opX0, opX0],
      some [[0], [1]]⟩ : LinearCombination).simplify.coeffs.length = 1
  unfold LinearCombination.simplify
  norm_num [LinearCombination.simplifyGo, findIdxQ, h1, h4, isCloseZero, CQ.add_def]

/-- Claim C9 (amended): `compare` mutates both stores: its post-states are
exactly the in-place simplified stores, and in particular both grouping
caches end up absent; the coefficient and operand sequences are unchanged
only when the stores are already in simplified form. -/
theorem C9_compare_simplifies_in_place (A B : LinearCombination) :
    (A.compare B).2.1 = A.simplify ∧ (A.compare B).2.2 = B.simplify ∧
    (A.compare B).2.1.grouping = none ∧ (A.compare B).2.2.grouping = none :=
  ⟨rfl, rfl, rfl, rfl⟩

/-- Claim C10 (counterexample): `__mul__` by a plain int returns a new
store whose coefficients are scaled but which is NOT simplified: starting
from a store with two structurally-equal terms, the product still has the
two un-merged terms, and running `simplify` on it changes it. -/
theorem C10_mul_not_simplified_counterexample :
    (⟨[⟨1, 0⟩, ⟨1, 0⟩], [opX0, opX0], none⟩ : LinearCombination).mul (PyScalar.int 2) =
      some ⟨[⟨2, 0⟩, ⟨2, 0⟩], [opX0, opX0], none⟩ ∧
    (⟨[⟨2, 0⟩, ⟨2, 0⟩], [opX0, opX0], none⟩ : LinearCombination).simplify ≠
      ⟨[⟨2, 0⟩, ⟨2, 0⟩], [opX0, opX0], none⟩ := by
  have h1 : compareB (toTensor opX0) opX0 = true := by decide
  have h4 : prune (toTensor opX0) = opX0 := by decide
  constructor
  · norm_num [LinearCombination.mul, PyScalar.val, CQ.mul_def]
  · have hs : (⟨[⟨2, 0⟩, ⟨2, 0⟩], [opX0, opX0], none⟩ : LinearCombination).simplify =
        ⟨[⟨4, 0⟩], [opX0], none⟩ := by
      unfold LinearCombination.simplify
      norm_num [LinearCombination.simplifyGo, findIdxQ, h1, h4, isCloseZero, CQ.add_def]
    rw [hs]
    intro hcontra
    have hlen := congrArg (fun s => s.coeffs.length) hcontra
    simp at hlen

/-- Claim C10 (amended): `__mul__` with a plain int or float returns a NEW
store (the original is untouched) whose coefficients are the scaled
originals and whose operand list is a copy, with a fresh absent grouping
cache but with NO simplification applied; any other scalar type yields the
`NotImplemented` sentinel so the caller's reflected overload can run. -/
theorem C10_mul_new_store (lc : LinearCombination) (n : Int) (q : ℚ) :
    lc.mul (PyScalar.int n) =
      some ⟨lc.coeffs.map (fun c => (PyScalar.int n).val * c), lc.ops, none⟩ ∧
    lc.mul (PyScalar.float q) =
      some ⟨lc.coeffs.map (fun c => (PyScalar.float q).val * c), lc.ops, none⟩ ∧
    lc.mul PyScalar.other = none :=
  ⟨rfl, rfl, rfl⟩

theorem length_pairMapFlatten {α β γ : Type} (f : α → β → γ) (a : List α) (b : List β) :
    ((a.map (fun x => b.map (fun y => f x y))).flatten).length = a.length * b.length := by
  induction a with
  | nil => simp
  | cons x xs ih =>
    simp only [List.map_cons, List.flatten_cons, List.length_append, List.length_map, ih,
      List.length_cons]
    ring

/-- Claim C5: the tensor product of two stores fails with the
IncompatibleWires ValueError exactly when they share a wire; on disjoint
wire sets it returns the simplified store whose coefficient vector is the
Kronecker product of the two coefficient vectors (left store major) and
whose operands are all pairwise tensor products. -/
theorem C5_matmul (A B : LinearCombination)
    (hA : A.coeffs.length = A.ops.length) (hB : B.coeffs.length = B.ops.length) :
    A.matmulLC B =
      (if (A.sharedWires B).length > 0 then Except.error LCError.incompatibleWires
       else Except.ok
         (LinearCombination.simplify
           ⟨kronVec A.coeffs B.coeffs, pairTensors A.ops B.ops, none⟩)) := by
  unfold LinearCombination.matmulLC
  split
  · rfl
  · unfold dot
    have hlen : (kronVec A.coeffs B.coeffs).length = (pairTensors A.ops B.ops).length := by
      simp only [kronVec, pairTensors, length_pairMapFlatten, hA, hB]
    rw [if_neg (by simp [hlen])]
    rfl

/-- Claim C5 (witness, scenario 4): two one-term stores both acting on
wire 0 fail with the IncompatibleWires error. -/
theorem C5_matmul_witness :
    (⟨[⟨1, 0⟩], [opX0], none⟩ : LinearCombination).matmulLC ⟨[⟨1, 0⟩], [opZ0], none⟩ =
      Except.error LCError.incompatibleWires := by
  rw [C5_matmul _ _ rfl rfl]
  rw [if_pos (by decide)]

/-- Grouping relation tags: `'qwc'`, `'commuting'`, `'anticommuting'`. -/
inductive GroupingType | qwc | commuting | anticommuting
deriving DecidableEq, Repr

/-- Number of anticommuting single-wire collisions between two Pauli
words: pairs of non-identity factors on the same wire with different
kinds. -/
def conflictCount (a b : Op) : Nat :=
  ((cls a ×ˢ cls b).filter (fun p => p.1.2 = p.2.2 ∧ p.1.1 ≠ p.2.1)).card

/-- Modelled from the spec: the binary compatibility relation between
Pauli words used by the external partitioner `qml.pauli.group_ops` (not
under `src/`): qubit-wise commutation demands no same-wire kind collision,
full commutation an even number of collisions, anticommutation an odd
number. -/
def compatibleB : GroupingType → Op → Op → Bool
  | GroupingType.qwc, a, b => conflictCount a b == 0
  | GroupingType.commuting, a, b => conflictCount a b % 2 == 0
  | GroupingType.anticommuting, a, b => conflictCount a b % 2 == 1

/-- Insert an operand into the first group all of whose members are
compatible with it, or open a new group at the end. -/
def insertGreedy (gt : GroupingType) (op : Op) : List (List Op) → List (List Op)
  | [] => [[op]]
  | g :: gs =>
    if g.all (fun o => compatibleB gt op o) then (g ++ [op]) :: gs
    else g :: insertGreedy gt op gs

/-- Modelled from the spec: the external graph-coloring partitioner
`qml.pauli.group_ops` (not under `src/`), whose contract per the spec is
`partition(operand_words, relation, heuristic) -> ordered sequence of
groups of operand_words`: every input word occurrence is placed in exactly
one group of pairwise-compatible words.  Modelled as a greedy first-fit
clique partition, a valid instance of the contract for either heuristic
tag. -/
def group_ops (ops : List Op) (gt : GroupingType) : List (List Op) :=
  ops.foldl (fun gs op => insertGreedy gt op gs) []

/-- The `qml.pauli.are_identical_pauli_words` test: equality of the two
operands' non-identity Pauli-word key sets. -/
def areIdenticalPauliWords (a b : Op) : Bool :=
  decide (cls a = cls b)

/-- One step of the index-recovery loop of `_compute_grouping_indices`:
find the first remaining (observable, original index) pair whose
observable is the given Pauli word, return its original index and the
remaining pairs with that entry deleted (`ops.pop(ind)`,
`available_indices.pop(ind)`). -/
def consumeOne (w : Op) : List (Op × Nat) → Option (Nat × List (Op × Nat))
  | [] => none
  | p :: s =>
    if areIdenticalPauliWords w p.1 then some (p.2, s)
    else
      match consumeOne w s with
      | none => none
      | some (i, s') => some (i, p :: s')

/-- The per-partition loop of `_compute_grouping_indices`: consume one
original index per Pauli word of the partition (words with no remaining
match contribute nothing), returning this group's indices and the
remaining pairs. -/
def consumeWords : List Op → List (Op × Nat) → List Nat × List (Op × Nat)
  | [], s => ([], s)
  | w :: ws, s =>
    match consumeOne w s with
    | none => consumeWords ws s
    | some (i, s') => ((i :: (consumeWords ws s').1), (consumeWords ws s').2)

/-- All partitions of the index-recovery loop, threading the shrinking
pool of (observable, index) pairs. -/
def computeGroupsAux : List (List Op) → List (Op × Nat) → List (List Nat)
  | [], _ => []
  | g :: gs, s => (consumeWords g s).1 :: computeGroupsAux gs (consumeWords g s).2

/-- The `_compute_grouping_indices` function: partition the ops with the
external partitioner, then map each partition's words back to original
indices, consuming each index at most once. -/
def _compute_grouping_indices (ops : List Op) (gt : GroupingType) : List (List Nat) :=
  computeGroupsAux (group_ops ops gt) (ops.zip (List.range ops.length))

namespace LinearCombination

/-- The `compute_grouping` method: store freshly computed grouping indices
in the cache. -/
def compute_grouping (lc : LinearCombination) (gt : GroupingType) : LinearCombination :=
  { lc with grouping := some (_compute_grouping_indices lc.ops gt) }

end LinearCombination

theorem consumeWords_append (g g' : List Op) :
    ∀ (s : List (Op × Nat)),
      consumeWords (g ++ g') s =
        ((consumeWords g s).1 ++ (consumeWords g' (consumeWords g s).2).1,
         (consumeWords g' (consumeWords g s).2).2) := by
  induction g with
  | nil => intro s; rfl
  | cons w ws ih =>
    intro s
    simp only [List.cons_append, consumeWords]
    cases consumeOne w s with
    | none => exact ih _
    | some p =>
      obtain ⟨i, s'⟩ := p
      dsimp only
      simp only [List.append_eq]
      rw [ih s']
      rfl

theorem computeGroupsAux_flatten :
    ∀ (gs : List (List Op)) (s : List (Op × Nat)),
      (computeGroupsAux gs s).flatten = (consumeWords gs.flatten s).1 := by
  intro gs
  induction gs with
  | nil => intro s; rfl
  | cons g gs ih =>
    intro s
    simp only [computeGroupsAux, List.flatten_cons, consumeWords_append, ih]

theorem consumeOne_some (w : Op) :
    ∀ (s : List (Op × Nat)), (∃ p ∈ s, cls p.1 = cls w) →
      ∃ p s₁ s₂, s = s₁ ++ p :: s₂ ∧ cls p.1 = cls w ∧
        consumeOne w s = some (p.2, s₁ ++ s₂) := by
  intro s
  induction s with
  | nil => rintro ⟨p, hp, _⟩; cases hp
  | cons q s ih =>
    intro hex
    by_cases hq : areIdenticalPauliWords w q.1 = true
    · refine ⟨q, [], s, rfl, ?_, ?_⟩
      · have := of_decide_eq_true hq
        exact this.symm
      · simp [consumeOne, hq]
    · have hq' : cls q.1 ≠ cls w := by
        intro hc
        exact hq (decide_eq_true hc.symm)
      obtain ⟨p, hp, hpc⟩ := hex
      rcases List.mem_cons.mp hp with hpq | hps
      · exact absurd (hpq ▸ hpc) hq'
      · obtain ⟨p', s₁, s₂, hs, hc, hco⟩ := ih ⟨p, hps, hpc⟩
        refine ⟨p', q :: s₁, s₂, by rw [hs, List.cons_append], hc, ?_⟩
        simp only [consumeOne, if_neg hq, hco, List.cons_append]

theorem consumeWords_perm :
    ∀ (ws : List Op) (s : List (Op × Nat)),
      (ws.map cls).Perm (s.map (fun p => cls p.1)) →
      (consumeWords ws s).1.Perm (s.map Prod.snd) := by
  intro ws
  induction ws with
  | nil =>
    intro s h
    have hnil : s.map (fun p => cls p.1) = [] := h.nil_eq.symm
    have : s = [] := by
      cases s with
      | nil => rfl
      | cons p s => simp at hnil
    subst this
    exact List.Perm.refl _
  | cons w ws ih =>
    intro s h
    have hmem : cls w ∈ s.map (fun p => cls p.1) :=
      h.mem_iff.mp (List.mem_cons_self _ _)
    obtain ⟨p, hp, hpc⟩ := List.mem_map.mp hmem
    obtain ⟨p', s₁, s₂, hs, hc, hco⟩ := consumeOne_some w s ⟨p, hp, hpc⟩
    simp only [consumeWords, hco]
    have hmapf : s.map (fun p => cls p.1) =
        s₁.map (fun p => cls p.1) ++ cls w :: s₂.map (fun p => cls p.1) := by
      rw [hs]; simp [hc]
    have hperm2 : (ws.map cls).Perm ((s₁ ++ s₂).map (fun p => cls p.1)) := by
      have h1 : (cls w :: ws.map cls).Perm
          (cls w :: (s₁ ++ s₂).map (fun p => cls p.1)) := by
        refine h.trans ?_
        rw [hmapf, List.map_append]
        exact List.perm_middle
      exact h1.cons_inv
    have hrest := ih _ hperm2
    rw [List.map_append] at hrest
    have hsnd : s.map Prod.snd = s₁.map Prod.snd ++ p'.2 :: s₂.map Prod.snd := by
      rw [hs]; simp
    rw [hsnd]
    refine List.Perm.trans ?_ List.perm_middle.symm
    exact hrest.cons p'.2

theorem insertGreedy_flatten_perm (gt : GroupingType) (op : Op) :
    ∀ (gs : List (List Op)), (insertGreedy gt op gs).flatten.Perm (op :: gs.flatten) := by
  intro gs
  induction gs with
  | nil => simp [insertGreedy]
  | cons g gs ih =>
    simp only [insertGreedy]
    split
    · simp only [List.flatten_cons, List.append_assoc, List.singleton_append]
      exact List.perm_middle.trans (List.Perm.refl _)
    · simp only [List.flatten_cons]
      refine List.Perm.trans (List.Perm.append_left g ih) ?_
      exact List.perm_middle

theorem group_ops_flatten_perm (ops : List Op) (gt : GroupingType) :
    (group_ops ops gt).flatten.Perm ops := by
  suffices h : ∀ (gs : List (List Op)),
      (ops.foldl (fun gs op => insertGreedy gt op gs) gs).flatten.Perm
        (ops ++ gs.flatten) by
    simpa using h []
  induction ops with
  | nil => intro gs; simp
  | cons op ops ih =>
    intro gs
    simp only [List.foldl_cons, List.cons_append]
    refine (ih _).trans ?_
    refine List.Perm.trans (List.Perm.append_left ops (insertGreedy_flatten_perm gt op gs)) ?_
    exact List.perm_middle

/-- Claim C3: every grouping produced by `_compute_grouping_indices` (the
function behind both `compute_grouping` and construction-time grouping)
covers each term index 0..N-1 exactly once: the concatenation of all group
index tuples is a permutation of `range(N)` (equivalently, its sorted form
is exactly `range(N)` with no duplicates), even when several original
terms have identical operand words. -/
theorem C3_grouping_partition (ops : List Op) (gt : GroupingType) :
    ((_compute_grouping_indices ops gt).flatten).Perm (List.range ops.length) := by
  unfold _compute_grouping_indices
  rw [computeGroupsAux_flatten]
  have hlen : (List.range ops.length).length = ops.length := List.length_range _
  have hfst : (ops.zip (List.range ops.length)).map Prod.fst = ops :=
    List.map_fst_zip _ _ (le_of_eq hlen.symm)
  have h1 : ((group_ops ops gt).flatten.map cls).Perm
      ((ops.zip (List.range ops.length)).map (fun p => cls p.1)) := by
    have h2 : ((ops.zip (List.range ops.length)).map (fun p => cls p.1)) =
        ops.map cls := by
      rw [show (fun p : Op × Nat => cls p.1) = cls ∘ Prod.fst from rfl, ← List.map_map, hfst]
    rw [h2]
    exact (group_ops_flatten_perm ops gt).map cls
  have h3 := consumeWords_perm _ _ h1
  rwa [List.map_snd_zip _ _ (le_of_eq hlen)] at h3

/-- A square matrix on `n` wires (dimension `2^n × 2^n`): entries indexed
by row and column numbers, rows/columns beyond the range irrelevant. -/
structure Block where
  n : Nat
  entry : Nat → Nat → CQ

/-- The Kronecker product `scipy.sparse.kron` of two blocks (left block
most significant). -/
def Block.kron (A B : Block) : Block :=
  ⟨A.n + B.n, fun i j =>
    A.entry (i / 2 ^ B.n) (j / 2 ^ B.n) * B.entry (i % 2 ^ B.n) (j % 2 ^ B.n)⟩

/-- The identity block `scipy.sparse.eye(2**k)`. -/
def eyeB (k : Nat) : Block := ⟨k, fun i j => if i = j then 1 else 0⟩

/-- `functools.reduce(lambda i, j: kron(i, j), mat)`: fold the Kronecker
product over the block list from the left, seeded with the first block
(the source raises on an empty list; that case is unreachable for the
nonempty wire orders the claims quantify over). -/
def kronReduce : List Block → Block
  | [] => eyeB 0
  | b :: bs => bs.foldl Block.kron b

/-- The 2×2 matrices of the Pauli-like factor kinds. -/
def PKind.mat : PKind → Nat → Nat → CQ
  | PKind.X => fun i j => if (i = 0 ∧ j = 1) ∨ (i = 1 ∧ j = 0) then 1 else 0
  | PKind.Y => fun i j =>
      if i = 0 ∧ j = 1 then ⟨0, -1⟩ else if i = 1 ∧ j = 0 then ⟨0, 1⟩ else 0
  | PKind.Z => fun i j =>
      if i = 0 ∧ j = 0 then 1 else if i = 1 ∧ j = 1 then ⟨-1, 0⟩ else 0
  | PKind.I => fun i j => if i = j then 1 else 0

/-- The single-qubit block of an atomic factor (`o.matrix()`). -/
def atomBlock (a : Atom) : Block := ⟨1, a.kind.mat⟩

/-- Position of a wire label in a wire list (`wires.index(wire_lab)`;
0 for an absent label, which the callers guard against). -/
def posIn (w : Nat) : List Nat → Nat
  | [] => 0
  | x :: xs => if x = w then 0 else posIn w xs + 1

/-- The per-term wire walk of `sparse_matrix`: walking the target wire
order, an acted wire first flushes the pending run of `i_count` identity
wires as a single `2^i_count` identity block and then inserts that wire's
single-qubit matrix (`obs[op.wires.index(wire_lab)]`); a non-acted wire
only grows the pending identity run, flushed once more after the walk. -/
def buildBlocks (op : Op) : List Nat → Nat → List Block
  | [], ic => if ic > 0 then [eyeB ic] else []
  | w :: ws, ic =>
    if w ∈ opWires op then
      (if ic > 0 then [eyeB ic] else []) ++
        (((op.factors).map atomBlock).getD (posIn w (opWires op)) (eyeB 1) ::
          buildBlocks op ws 0)
    else buildBlocks op ws (ic + 1)

/-- One term of the sparse path:
`red_mat = functools.reduce(kron, mat) * coeff`. -/
def sparseTermB (wires : List Nat) (c : CQ) (op : Op) : Block :=
  ⟨(kronReduce (buildBlocks op wires 0)).n,
   fun i j => (kronReduce (buildBlocks op wires 0)).entry i j * c⟩

/-- The all-zero block `csr_matrix((2**n, 2**n))`. -/
def zeroB (n : Nat) : Block := ⟨n, fun _ _ => 0⟩

/-- Entrywise matrix addition. -/
def addB (A B : Block) : Block := ⟨A.n, fun i j => A.entry i j + B.entry i j⟩

/-- The sum `sum(temp_mats)` of a batch of blocks of common wire count. -/
def sumB (n : Nat) (l : List Block) : Block :=
  ⟨n, fun i j => (l.map (fun b => b.entry i j)).sum⟩

namespace LinearCombination

/-- The `sparse_matrix` method: per-term Kronecker assembly over the wire
order (the store's own sorted wires when none is supplied), accumulating
the scaled term matrices in `temp_mats` and flushing the batch into the
running total whenever its length becomes a multiple of 100, with a final
flush after the loop.  There is no validation of the supplied wire order
here: wires of a term missing from the order are silently skipped by the
walk. -/
def sparseStep (wires : List Nat) (acc : Block × List Block) (p : CQ × Op) :
    Block × List Block :=
  let temps := acc.2 ++ [sparseTermB wires p.1 p.2]
  if temps.length % 100 == 0 then (addB acc.1 (sumB wires.length temps), [])
  else (acc.1, temps)

/-- See the doc comment above: the whole method. -/
def sparse_matrix (lc : LinearCombination) (wire_order : Option (List Nat)) : Block :=
  let wires := wire_order.getD lc.wiresList
  let r := (lc.coeffs.zip lc.ops).foldl (sparseStep wires) (zeroB wires.length, [])
  addB r.1 (sumB wires.length r.2)

end LinearCombination

/-- Bit of a row/column index at position `k` of a `W`-wire order, most
significant wire first. -/
def bitAt (W k i : Nat) : Nat := i / 2 ^ (W - 1 - k) % 2

/-- Modelled from the spec: the sub-index of a full index at the positions
(within the global wire order) of the operand's wires, used by
`qml.math.expand_matrix` (not under `src/`) to address the operand's own
matrix inside the expanded one. -/
def gatherIdx (wo : List Nat) : List Nat → Nat → Nat
  | [], _ => 0
  | w :: ws, i => bitAt wo.length (posIn w wo) i * 2 ^ ws.length + gatherIdx wo ws i

/-- Modelled from the spec: the identity factor that `expand_matrix`
places at the wires not acted on by the operand: row and column bits must
agree at every non-acted position. -/
def deltaNonActed (ws wo : List Nat) (i j : Nat) : CQ :=
  Finset.prod (Finset.range wo.length) fun k =>
    if wo.getD k 0 ∈ ws then 1
    else if bitAt wo.length k i = bitAt wo.length k j then 1 else 0

/-- Modelled from the spec: `Tensor.matrix` (external to `src/`), the
Kronecker product of the factor matrices in factor order. -/
def opMatrixB (op : Op) : Block := kronReduce ((op.factors).map atomBlock)

/-- Modelled from the spec: one term of the dense path,
`expand_matrix(op.matrix(), op.wires, wire_order)`: the operand's matrix
entry at the gathered sub-indices, tensored with identity at the non-acted
wires. -/
def expandEntry (op : Op) (wo : List Nat) (i j : Nat) : CQ :=
  deltaNonActed (opWires op) wo i j *
    (opMatrixB op).entry (gatherIdx wo (opWires op) i) (gatherIdx wo (opWires op) j)

/-- The dense assembly of the `matrix` method: the sum over all terms of
coefficient times expanded term matrix (`reduce_matrices` with
`reduce_func=add` followed by the final `expand_matrix` to the wire
order). -/
def denseBlock (lc : LinearCombination) (wo : List Nat) : Block :=
  ⟨wo.length, fun i j =>
    ((lc.coeffs.zip lc.ops).map (fun p => p.1 * expandEntry p.2 wo i j)).sum⟩

namespace LinearCombination

/-- The `matrix` method: `expand_matrix` (modelled from the spec, external
to `src/`) resolves every operand wire's position inside the wire order
with `wire_order.index(w)` and fails with a ValueError-class error when a
wire is missing; otherwise the dense assembly over the order (the store's
own sorted wires when none is supplied) is returned. -/
def matrix (lc : LinearCombination) (wire_order : Option (List Nat)) :
    Except LCError Block :=
  let wo := wire_order.getD lc.wiresList
  if lc.ops.all (fun op => (opWires op).all (fun w => w ∈ wo)) then
    Except.ok (denseBlock lc wo)
  else Except.error LCError.incompleteWireOrder

end LinearCombination

/-- Total wire count of a block list. -/
def sizesB (bs : List Block) : Nat := (bs.map Block.n).sum

/-- Reference entry form of the Kronecker product of a block list: each
block reads its own slice of the index bits, most significant first. -/
def prodBlocks : List Block → Nat → Nat → CQ
  | [], _, _ => 1
  | b :: bs, i, j =>
    b.entry (i / 2 ^ sizesB bs) (j / 2 ^ sizesB bs) *
      prodBlocks bs (i % 2 ^ sizesB bs) (j % 2 ^ sizesB bs)

theorem sizesB_append (xs ys : List Block) :
    sizesB (xs ++ ys) = sizesB xs + sizesB ys := by
  simp [sizesB]

theorem two_pow_pos' (s : Nat) : 0 < 2 ^ s := Nat.pos_pow_of_pos s (by norm_num)

theorem foldl_kron_entry :
    ∀ (bs : List Block) (acc : Block) (i j : Nat),
      (bs.foldl Block.kron acc).entry i j =
        acc.entry (i / 2 ^ sizesB bs) (j / 2 ^ sizesB bs) *
          prodBlocks bs (i % 2 ^ sizesB bs) (j % 2 ^ sizesB bs) := by
  intro bs
  induction bs with
  | nil =>
    intro acc i j
    simp [sizesB, prodBlocks]
  | cons b bs ih =>
    intro acc i j
    have hs : sizesB (b :: bs) = b.n + sizesB bs := by simp [sizesB]
    rw [List.foldl_cons, ih (acc.kron b) i j]
    show acc.entry (i / 2 ^ sizesB bs / 2 ^ b.n) (j / 2 ^ sizesB bs / 2 ^ b.n) *
        b.entry (i / 2 ^ sizesB bs % 2 ^ b.n) (j / 2 ^ sizesB bs % 2 ^ b.n) *
        prodBlocks bs (i % 2 ^ sizesB bs) (j % 2 ^ sizesB bs) = _
    rw [prodBlocks, hs]
    have hdiv : ∀ x : Nat, x / 2 ^ sizesB bs / 2 ^ b.n = x / 2 ^ (b.n + sizesB bs) := by
      intro x
      rw [Nat.div_div_eq_div_mul, ← pow_add, Nat.add_comm]
    have hmix : ∀ x : Nat, x / 2 ^ sizesB bs % 2 ^ b.n =
        x % 2 ^ (b.n + sizesB bs) / 2 ^ sizesB bs := by
      intro x
      rw [pow_add, Nat.mul_comm, ← Nat.mod_mul_right_div_self]
    have hmod : ∀ x : Nat, x % 2 ^ (b.n + sizesB bs) % 2 ^ sizesB bs =
        x % 2 ^ sizesB bs := by
      intro x
      exact Nat.mod_mod_of_dvd x (pow_dvd_pow 2 (Nat.le_add_left _ _))
    rw [hdiv i, hdiv j, hmix i, hmix j, hmod i, hmod j]
    ring

theorem kronReduce_entry (b : Block) (bs : List Block) (i j : Nat) :
    (kronReduce (b :: bs)).entry i j = prodBlocks (b :: bs) i j := by
  rw [kronReduce, foldl_kron_entry bs b i j, prodBlocks]

theorem prodBlocks_append :
    ∀ (xs ys : List Block) (i j : Nat), i < 2 ^ (sizesB xs + sizesB ys) →
      j < 2 ^ (sizesB xs + sizesB ys) →
      prodBlocks (xs ++ ys) i j =
        prodBlocks xs (i / 2 ^ sizesB ys) (j / 2 ^ sizesB ys) *
          prodBlocks ys (i % 2 ^ sizesB ys) (j % 2 ^ sizesB ys) := by
  intro xs
  induction xs with
  | nil =>
    intro ys i j hi hj
    have hsz : sizesB ([] : List Block) = 0 := rfl
    rw [hsz, Nat.zero_add] at hi hj
    rw [List.nil_append]
    show prodBlocks ys i j = 1 * prodBlocks ys (i % 2 ^ sizesB ys) (j % 2 ^ sizesB ys)
    rw [Nat.mod_eq_of_lt hi, Nat.mod_eq_of_lt hj, one_mul]
  | cons b xs ih =>
    intro ys i j hi hj
    have hs1 : sizesB (b :: xs) = b.n + sizesB xs := by simp [sizesB]
    have hs2 : sizesB (xs ++ ys) = sizesB xs + sizesB ys := sizesB_append xs ys
    rw [List.cons_append, prodBlocks, hs2]
    have hmodlt : ∀ x : Nat, x % 2 ^ (sizesB xs + sizesB ys) <
        2 ^ (sizesB xs + sizesB ys) := fun x => Nat.mod_lt x (two_pow_pos' _)
    rw [ih ys _ _ (hmodlt i) (hmodlt j)]
    rw [prodBlocks]
    have hdiv : ∀ x : Nat, x / 2 ^ sizesB ys / 2 ^ sizesB xs =
        x / 2 ^ (sizesB xs + sizesB ys) := by
      intro x
      rw [Nat.div_div_eq_div_mul, ← pow_add, Nat.add_comm]
    have hmix : ∀ x : Nat, x % 2 ^ (sizesB xs + sizesB ys) / 2 ^ sizesB ys =
        x / 2 ^ sizesB ys % 2 ^ sizesB xs := by
      intro x
      rw [Nat.add_comm, pow_add, Nat.mod_mul_right_div_self]
    have hmod : ∀ x : Nat, x % 2 ^ (sizesB xs + sizesB ys) % 2 ^ sizesB ys =
        x % 2 ^ sizesB ys := by
      intro x
      exact Nat.mod_mod_of_dvd x (pow_dvd_pow 2 (Nat.le_add_left _ _))
    rw [hdiv i, hdiv j, hmix i, hmix j, hmod i, hmod j]
    ring

/-- The per-wire local factor of a term at one wire of the global order:
the operand's own single-qubit matrix at an acted wire, the 2×2 identity
otherwise. -/
def localEntry (op : Op) (w : Nat) (a b : Nat) : CQ :=
  if w ∈ opWires op then
    (((op.factors).map atomBlock).getD (posIn w (opWires op)) (eyeB 1)).entry a b
  else if a = b then 1 else 0

/-- Reference per-wire product form of one term's full matrix over a wire
list, most significant wire first. -/
def wireProd (op : Op) : List Nat → Nat → Nat → CQ
  | [], i, j => if i = j then 1 else 0
  | w :: ws, i, j =>
    localEntry op w (i / 2 ^ ws.length) (j / 2 ^ ws.length) *
      wireProd op ws (i % 2 ^ ws.length) (j % 2 ^ ws.length)

theorem sizesB_cons (b : Block) (bs : List Block) :
    sizesB (b :: bs) = b.n + sizesB bs := by
  simp [sizesB]

theorem sizesB_eyeB_singleton (k : Nat) : sizesB [eyeB k] = k := by
  simp [sizesB, eyeB]

theorem getD_atomBlock_n (fs : List Atom) (k : Nat) :
    ((fs.map atomBlock).getD k (eyeB 1)).n = 1 := by
  induction fs generalizing k with
  | nil => simp [List.getD, eyeB]
  | cons a fs ih =>
    cases k with
    | zero => rfl
    | succ k => simpa using ih k

theorem sizesB_buildBlocks (op : Op) :
    ∀ (ws : List Nat) (ic : Nat), sizesB (buildBlocks op ws ic) = ic + ws.length := by
  intro ws
  induction ws with
  | nil =>
    intro ic
    simp only [buildBlocks, List.length_nil]
    by_cases h : ic > 0
    · rw [if_pos h, sizesB_eyeB_singleton]; omega
    · rw [if_neg h, show sizesB ([] : List Block) = 0 from rfl]
      omega
  | cons w ws ih =>
    intro ic
    by_cases hw : w ∈ opWires op
    · have hb := getD_atomBlock_n op.factors (posIn w (opWires op))
      simp only [buildBlocks, if_pos hw, sizesB_append, sizesB_cons, hb, ih 0,
        List.length_cons]
      by_cases hic : ic > 0
      · rw [if_pos hic, sizesB_eyeB_singleton]; omega
      · rw [if_neg hic, show sizesB ([] : List Block) = 0 from rfl]; omega
    · simp only [buildBlocks, if_neg hw, ih (ic + 1), List.length_cons]
      omega

theorem delta_pair (x y : Nat) :
    ((if x / 2 = y / 2 then (1 : CQ) else 0) * (if x % 2 = y % 2 then 1 else 0)) =
      if x = y then 1 else 0 := by
  by_cases h : x = y
  · simp [h]
  · by_cases h1 : x / 2 = y / 2
    · have h2 : ¬ x % 2 = y % 2 := by omega
      simp [h, h1, h2]
    · simp [h, h1]

theorem prodBlocks_buildBlocks (op : Op) :
    ∀ (ws : List Nat) (ic i j : Nat),
      i < 2 ^ (ic + ws.length) → j < 2 ^ (ic + ws.length) →
      prodBlocks (buildBlocks op ws ic) i j =
        (if i / 2 ^ ws.length = j / 2 ^ ws.length then 1 else 0) *
          wireProd op ws (i % 2 ^ ws.length) (j % 2 ^ ws.length) := by
  intro ws
  induction ws with
  | nil =>
    intro ic i j hi hj
    by_cases h : ic > 0
    · simp only [buildBlocks, if_pos h]
      rw [show prodBlocks [eyeB ic] i j = if i = j then 1 else 0 from by
        simp [prodBlocks, eyeB, sizesB]]
      simp [wireProd, Nat.mod_one]
    · have hic : ic = 0 := by omega
      subst hic
      have hi0 : i = 0 := by simpa [Nat.lt_one_iff] using hi
      have hj0 : j = 0 := by simpa [Nat.lt_one_iff] using hj
      subst hi0; subst hj0
      simp [buildBlocks, prodBlocks, wireProd]
  | cons w ws ih =>
    intro ic i j hi hj
    have hlen' : ic + (w :: ws).length = (ic + 1) + ws.length := by
      simp only [List.length_cons]; omega
    by_cases hw : w ∈ opWires op
    · -- acted wire: pending identities flushed, factor block inserted
      simp only [buildBlocks, if_pos hw]
      have hsys : sizesB ((((op.factors).map atomBlock).getD (posIn w (opWires op))
          (eyeB 1)) :: buildBlocks op ws 0) = 1 + ws.length := by
        rw [sizesB_cons, getD_atomBlock_n, sizesB_buildBlocks]
        omega
      have hpfx : sizesB (if ic > 0 then [eyeB ic] else []) = ic := by
        by_cases h : ic > 0
        · rw [if_pos h, sizesB_eyeB_singleton]
        · rw [if_neg h]
          have hic : ic = 0 := by omega
          rw [hic]; rfl
      have hi' : i < 2 ^ (sizesB (if ic > 0 then [eyeB ic] else []) +
          sizesB ((((op.factors).map atomBlock).getD (posIn w (opWires op))
            (eyeB 1)) :: buildBlocks op ws 0)) := by
        rw [hpfx, hsys]
        have : ic + (1 + ws.length) = ic + (w :: ws).length := by
          simp only [List.length_cons]; omega
        rw [this]; exact hi
      have hj' : j < 2 ^ (sizesB (if ic > 0 then [eyeB ic] else []) +
          sizesB ((((op.factors).map atomBlock).getD (posIn w (opWires op))
            (eyeB 1)) :: buildBlocks op ws 0)) := by
        rw [hpfx, hsys]
        have : ic + (1 + ws.length) = ic + (w :: ws).length := by
          simp only [List.length_cons]; omega
        rw [this]; exact hj
      rw [prodBlocks_append _ _ i j hi' hj']
      rw [hsys]
      have hone : (1 : Nat) + ws.length = ws.length + 1 := Nat.add_comm _ _
      rw [hone]
      simp only [prodBlocks, sizesB_buildBlocks, Nat.zero_add]
      have hislt : ∀ x : Nat, x % 2 ^ ws.length < 2 ^ (0 + ws.length) := by
        intro x
        rw [Nat.zero_add]
        exact Nat.mod_lt x (two_pow_pos' _)
      rw [ih 0 _ _ (hislt _) (hislt _)]
      have hm : ∀ x : Nat, x % 2 ^ ws.length % 2 ^ ws.length = x % 2 ^ ws.length :=
        fun x => Nat.mod_mod_of_dvd x dvd_rfl
      have hd : ∀ x : Nat, x % 2 ^ ws.length / 2 ^ ws.length = 0 :=
        fun x => Nat.div_eq_of_lt (Nat.mod_lt x (two_pow_pos' _))
      rw [hm, hm, hd, hd]
      simp only [if_true, eq_self_iff_true, one_mul, List.length_cons]
      -- unfold the right-hand side wireProd and localEntry
      rw [show wireProd op (w :: ws) (i % 2 ^ (ws.length + 1)) (j % 2 ^ (ws.length + 1)) =
          localEntry op w (i % 2 ^ (ws.length + 1) / 2 ^ ws.length)
            (j % 2 ^ (ws.length + 1) / 2 ^ ws.length) *
          wireProd op ws (i % 2 ^ (ws.length + 1) % 2 ^ ws.length)
            (j % 2 ^ (ws.length + 1) % 2 ^ ws.length) from by
        rw [wireProd]]
      rw [localEntry, if_pos hw]
      -- identify the pending-identity product with the full-order delta
      have hpfxval : prodBlocks (if ic > 0 then [eyeB ic] else [])
          (i / 2 ^ (ws.length + 1)) (j / 2 ^ (ws.length + 1)) =
          (if i / 2 ^ (ws.length + 1) = j / 2 ^ (ws.length + 1) then 1 else 0) := by
        by_cases h : ic > 0
        · rw [if_pos h]
          rw [show prodBlocks [eyeB ic] (i / 2 ^ (ws.length + 1)) (j / 2 ^ (ws.length + 1)) =
              if i / 2 ^ (ws.length + 1) = j / 2 ^ (ws.length + 1) then 1 else 0 from by
            simp [prodBlocks, eyeB, sizesB]]
        · have hic : ic = 0 := by omega
          subst hic
          rw [if_neg h]
          have hi0 : i / 2 ^ (ws.length + 1) = 0 := by
            apply Nat.div_eq_of_lt
            simpa [List.length_cons] using hi
          have hj0 : j / 2 ^ (ws.length + 1) = 0 := by
            apply Nat.div_eq_of_lt
            simpa [List.length_cons] using hj
          simp [prodBlocks, hi0, hj0]
      rw [hpfxval]
    · -- non-acted wire: the wire joins the pending identity run
      simp only [buildBlocks, if_neg hw]
      have hi' : i < 2 ^ ((ic + 1) + ws.length) := by rw [← hlen']; exact hi
      have hj' : j < 2 ^ ((ic + 1) + ws.length) := by rw [← hlen']; exact hj
      rw [ih (ic + 1) i j hi' hj']
      rw [show wireProd op (w :: ws) (i % 2 ^ (w :: ws).length) (j % 2 ^ (w :: ws).length) =
          localEntry op w (i % 2 ^ (w :: ws).length / 2 ^ ws.length)
            (j % 2 ^ (w :: ws).length / 2 ^ ws.length) *
          wireProd op ws (i % 2 ^ (w :: ws).length % 2 ^ ws.length)
            (j % 2 ^ (w :: ws).length % 2 ^ ws.length) from by
        rw [wireProd]]
      rw [localEntry, if_neg hw]
      simp only [List.length_cons]
      rw [show i % 2 ^ (ws.length + 1) % 2 ^ ws.length = i % 2 ^ ws.length from
        Nat.mod_mod_of_dvd i (pow_dvd_pow 2 (Nat.le_succ _))]
      rw [show j % 2 ^ (ws.length + 1) % 2 ^ ws.length = j % 2 ^ ws.length from
        Nat.mod_mod_of_dvd j (pow_dvd_pow 2 (Nat.le_succ _))]
      have hx : ∀ x : Nat, x / 2 ^ (ws.length + 1) = x / 2 ^ ws.length / 2 := by
        intro x
        rw [Nat.div_div_eq_div_mul, ← pow_succ]
      have hy : ∀ x : Nat, x % 2 ^ (ws.length + 1) / 2 ^ ws.length =
          x / 2 ^ ws.length % 2 := by
        intro x
        rw [pow_succ, Nat.mod_mul_right_div_self]
      simp only [hx, hy]
      rw [← mul_assoc, delta_pair]

theorem posIn_lt_length {w : Nat} : ∀ {l : List Nat}, w ∈ l → posIn w l < l.length := by
  intro l
  induction l with
  | nil => intro h; cases h
  | cons x xs ih =>
    intro h
    by_cases hx : x = w
    · simp [posIn, hx]
    · have hw : w ∈ xs := by
        rcases List.mem_cons.mp h with h1 | h2
        · exact absurd h1.symm hx
        · exact h2
      simp only [posIn, if_neg hx, List.length_cons]
      exact Nat.succ_lt_succ (ih hw)

theorem getD_posIn {w d : Nat} : ∀ {l : List Nat}, w ∈ l → l.getD (posIn w l) d = w := by
  intro l
  induction l with
  | nil => intro h; cases h
  | cons x xs ih =>
    intro h
    by_cases hx : x = w
    · simp [posIn, hx]
    · have hw : w ∈ xs := by
        rcases List.mem_cons.mp h with h1 | h2
        · exact absurd h1.symm hx
        · exact h2
      simp only [posIn, if_neg hx, List.getD_cons_succ]
      exact ih hw

theorem posIn_getD {d : Nat} :
    ∀ {l : List Nat}, l.Nodup → ∀ {k : Nat}, k < l.length → posIn (l.getD k d) l = k := by
  intro l
  induction l with
  | nil => intro _ k hk; cases hk
  | cons x xs ih =>
    intro hnd k hk
    cases k with
    | zero => simp [posIn]
    | succ k =>
      have hk' : k < xs.length := by simpa using hk
      have hmem : xs.getD k d ∈ xs := by
        rw [List.getD_eq_getElem?_getD, List.getElem?_eq_getElem hk']
        exact List.getElem_mem _
      have hx : x ≠ xs.getD k d := by
        intro hc
        exact (List.nodup_cons.mp hnd).1 (hc ▸ hmem)
      simp only [List.getD_cons_succ, posIn, if_neg (by exact fun hc => hx hc)]
      rw [ih (List.nodup_cons.mp hnd).2 hk']

theorem getD_mem_of_lt {d : Nat} {l : List Nat} {k : Nat} (hk : k < l.length) :
    l.getD k d ∈ l := by
  rw [List.getD_eq_getElem?_getD, List.getElem?_eq_getElem hk]
  exact List.getElem_mem _

theorem getD_map_atomBlock (fs : List Atom) (dA : Atom) :
    ∀ (k : Nat), k < fs.length →
      (fs.map atomBlock).getD k (eyeB 1) = atomBlock (fs.getD k dA) := by
  induction fs with
  | nil => intro k hk; cases hk
  | cons a fs ih =>
    intro k hk
    cases k with
    | zero => rfl
    | succ k =>
      simp only [List.map_cons, List.getD_cons_succ]
      exact ih k (by simpa using hk)

theorem getD_map_wire (fs : List Atom) (dA : Atom) :
    ∀ (k : Nat), k < fs.length →
      (fs.map Atom.wire).getD k dA.wire = (fs.getD k dA).wire := by
  induction fs with
  | nil => intro k hk; cases hk
  | cons a fs ih =>
    intro k hk
    cases k with
    | zero => rfl
    | succ k =>
      simp only [List.map_cons, List.getD_cons_succ]
      exact ih k (by simpa using hk)

theorem dedupF_eq_self {l : List Nat} (h : l.Nodup) : dedupF l = l := by
  suffices haux : ∀ (acc rest : List Nat), (acc ++ rest).Nodup →
      rest.foldl (fun acc w => if w ∈ acc then acc else acc ++ [w]) acc = acc ++ rest by
    simpa using haux [] l (by simpa using h)
  intro acc rest
  induction rest generalizing acc with
  | nil => intro _; simp
  | cons x xs ih =>
    intro hnd
    have hx : x ∉ acc := by
      intro hc
      have := List.disjoint_of_nodup_append hnd
      exact this hc (List.mem_cons_self _ _)
    simp only [List.foldl_cons, if_neg hx]
    have := ih (acc ++ [x]) (by simpa using hnd)
    rw [this]
    simp

/-- Membership of a factor wire in the operand wires. -/
theorem wire_mem_opWires (op : Op) (a : Atom) (ha : a ∈ op.factors) :
    a.wire ∈ opWires op := by
  suffices haux : ∀ (ls : List Nat) (acc : List Nat) (w : Nat),
      w ∈ acc ∨ w ∈ ls →
      w ∈ ls.foldl (fun acc w => if w ∈ acc then acc else acc ++ [w]) acc by
    exact haux _ [] a.wire (Or.inr (List.mem_map_of_mem Atom.wire ha))
  intro ls
  induction ls with
  | nil => intro acc w h; rcases h with h | h; exact h; cases h
  | cons x xs ih =>
    intro acc w h
    simp only [List.foldl_cons]
    by_cases hx : x ∈ acc
    · rw [if_pos hx]
      apply ih
      rcases h with h | h
      · exact Or.inl h
      · rcases List.mem_cons.mp h with h1 | h2
        · exact Or.inl (h1 ▸ hx)
        · exact Or.inr h2
    · rw [if_neg hx]
      apply ih
      rcases h with h | h
      · exact Or.inl (List.mem_append_left _ h)
      · rcases List.mem_cons.mp h with h1 | h2
        · exact Or.inl (List.mem_append_right _ (h1 ▸ List.mem_singleton_self x))
        · exact Or.inr h2

/-- Reference per-factor product form of a term's own matrix entry: each
factor reads the global-index bit at its wire's position in the order. -/
def factorsProd (wo : List Nat) : List Atom → Nat → Nat → CQ
  | [], _, _ => 1
  | f :: fs, i, j =>
    f.kind.mat (bitAt wo.length (posIn f.wire wo) i)
      (bitAt wo.length (posIn f.wire wo) j) * factorsProd wo fs i j

theorem bitAt_lt_two (W k i : Nat) : bitAt W k i < 2 := Nat.mod_lt _ (by norm_num)

theorem gatherIdx_lt (wo : List Nat) : ∀ (ws : List Nat) (i : Nat),
    gatherIdx wo ws i < 2 ^ ws.length := by
  intro ws
  induction ws with
  | nil => intro i; simp [gatherIdx]
  | cons w ws ih =>
    intro i
    have h1 : bitAt wo.length (posIn w wo) i < 2 := bitAt_lt_two _ _ _
    have h2 := ih i
    have h3 : 2 ^ (w :: ws).length = 2 * 2 ^ ws.length := by
      rw [List.length_cons, pow_succ, Nat.mul_comm]
    interval_cases hb : bitAt wo.length (posIn w wo) i <;>
      rw [gatherIdx, h3, hb] <;> omega

theorem gatherIdx_div (wo : List Nat) (w : Nat) (ws : List Nat) (i : Nat) :
    gatherIdx wo (w :: ws) i / 2 ^ ws.length = bitAt wo.length (posIn w wo) i := by
  rw [gatherIdx, Nat.add_comm, Nat.add_mul_div_right _ _ (two_pow_pos' _),
    Nat.div_eq_of_lt (gatherIdx_lt wo ws i), Nat.zero_add]

theorem gatherIdx_mod (wo : List Nat) (w : Nat) (ws : List Nat) (i : Nat) :
    gatherIdx wo (w :: ws) i % 2 ^ ws.length = gatherIdx wo ws i := by
  rw [gatherIdx, Nat.add_comm, Nat.add_mul_mod_self_right,
    Nat.mod_eq_of_lt (gatherIdx_lt wo ws i)]

theorem sizesB_atomBlocks (fs : List Atom) : sizesB (fs.map atomBlock) = fs.length := by
  induction fs with
  | nil => rfl
  | cons a fs ih =>
    rw [List.map_cons, sizesB_cons, ih, List.length_cons]
    show 1 + fs.length = fs.length + 1
    omega

theorem prodBlocks_atomBlocks (wo : List Nat) :
    ∀ (fs : List Atom) (i j : Nat),
      prodBlocks (fs.map atomBlock) (gatherIdx wo (fs.map Atom.wire) i)
        (gatherIdx wo (fs.map Atom.wire) j) = factorsProd wo fs i j := by
  intro fs
  induction fs with
  | nil => intro i j; rfl
  | cons f fs ih =>
    intro i j
    have hlen : (fs.map Atom.wire).length = fs.length := List.length_map _ _
    rw [show (f :: fs).map atomBlock = atomBlock f :: fs.map atomBlock from rfl,
      show (f :: fs).map Atom.wire = f.wire :: fs.map Atom.wire from rfl]
    rw [prodBlocks, sizesB_atomBlocks]
    rw [show (2 : Nat) ^ fs.length = 2 ^ (fs.map Atom.wire).length from by rw [hlen]]
    rw [gatherIdx_div, gatherIdx_div, gatherIdx_mod, gatherIdx_mod]
    rw [ih i j, factorsProd]
    rfl

theorem bitAt_zero (n i : Nat) (hi : i < 2 ^ (n + 1)) : bitAt (n + 1) 0 i = i / 2 ^ n := by
  unfold bitAt
  rw [show n + 1 - 1 - 0 = n from by omega]
  apply Nat.mod_eq_of_lt
  rw [Nat.div_lt_iff_lt_mul (two_pow_pos' n)]
  rw [pow_succ] at hi
  omega

theorem bitAt_succ (n k i : Nat) (hk : k < n) :
    bitAt (n + 1) (k + 1) i = bitAt n k (i % 2 ^ n) := by
  unfold bitAt
  rw [show n + 1 - 1 - (k + 1) = n - 1 - k from by omega]
  have h2 : i % 2 ^ n / 2 ^ (n - 1 - k) = i / 2 ^ (n - 1 - k) % 2 ^ (n - (n - 1 - k)) := by
    rw [show (2 : Nat) ^ n = 2 ^ (n - 1 - k) * 2 ^ (n - (n - 1 - k)) from by
      rw [← pow_add]; congr 1; omega]
    rw [Nat.mod_mul_right_div_self]
  rw [h2]
  rw [Nat.mod_mod_of_dvd _ (dvd_pow_self 2 (show n - (n - 1 - k) ≠ 0 from by omega))]

theorem wireProd_prod_range (op : Op) :
    ∀ (ws : List Nat) (i j : Nat), i < 2 ^ ws.length → j < 2 ^ ws.length →
      wireProd op ws i j =
        Finset.prod (Finset.range ws.length) (fun k =>
          localEntry op (ws.getD k 0) (bitAt ws.length k i) (bitAt ws.length k j)) := by
  intro ws
  induction ws with
  | nil =>
    intro i j hi hj
    have hi0 : i = 0 := by simpa [Nat.lt_one_iff] using hi
    have hj0 : j = 0 := by simpa [Nat.lt_one_iff] using hj
    subst hi0; subst hj0
    simp [wireProd]
  | cons w ws ih =>
    intro i j hi hj
    have hmlt : ∀ x : Nat, x % 2 ^ ws.length < 2 ^ ws.length :=
      fun x => Nat.mod_lt x (two_pow_pos' _)
    rw [wireProd, ih (i % 2 ^ ws.length) (j % 2 ^ ws.length) (hmlt i) (hmlt j)]
    rw [List.length_cons, Finset.prod_range_succ']
    have hlc : ∀ x : Nat, x < 2 ^ (ws.length + 1) →
        bitAt (ws.length + 1) 0 x = x / 2 ^ ws.length := fun x hx => bitAt_zero _ _ hx
    have hf0 : localEntry op ((w :: ws).getD 0 0) (bitAt (ws.length + 1) 0 i)
        (bitAt (ws.length + 1) 0 j) =
        localEntry op w (i / 2 ^ ws.length) (j / 2 ^ ws.length) := by
      rw [List.getD_cons_zero, hlc i (by simpa using hi), hlc j (by simpa using hj)]
    have hcong : Finset.prod (Finset.range ws.length) (fun k =>
        localEntry op ((w :: ws).getD (k + 1) 0) (bitAt (ws.length + 1) (k + 1) i)
          (bitAt (ws.length + 1) (k + 1) j)) =
        Finset.prod (Finset.range ws.length) (fun k =>
        localEntry op (ws.getD k 0) (bitAt ws.length k (i % 2 ^ ws.length))
          (bitAt ws.length k (j % 2 ^ ws.length))) := by
      apply Finset.prod_congr rfl
      intro k hk
      have hkn : k < ws.length := Finset.mem_range.mp hk
      rw [List.getD_cons_succ, bitAt_succ _ _ _ hkn, bitAt_succ _ _ _ hkn]
    rw [hcong, hf0, mul_comm]

theorem factorsProd_eq_range (wo : List Nat) :
    ∀ (fs : List Atom) (i j : Nat),
      factorsProd wo fs i j = Finset.prod (Finset.range fs.length) (fun t =>
        (fs.getD t ⟨PKind.I, 0⟩).kind.mat
          (bitAt wo.length (posIn (fs.getD t ⟨PKind.I, 0⟩).wire wo) i)
          (bitAt wo.length (posIn (fs.getD t ⟨PKind.I, 0⟩).wire wo) j)) := by
  intro fs
  induction fs with
  | nil => intro i j; simp [factorsProd]
  | cons f fs ih =>
    intro i j
    rw [factorsProd, ih i j, List.length_cons, Finset.prod_range_succ']
    have hcong : Finset.prod (Finset.range fs.length) (fun t =>
        ((f :: fs).getD (t + 1) ⟨PKind.I, 0⟩).kind.mat
          (bitAt wo.length (posIn ((f :: fs).getD (t + 1) ⟨PKind.I, 0⟩).wire wo) i)
          (bitAt wo.length (posIn ((f :: fs).getD (t + 1) ⟨PKind.I, 0⟩).wire wo) j)) =
        Finset.prod (Finset.range fs.length) (fun t =>
        (fs.getD t ⟨PKind.I, 0⟩).kind.mat
          (bitAt wo.length (posIn (fs.getD t ⟨PKind.I, 0⟩).wire wo) i)
          (bitAt wo.length (posIn (fs.getD t ⟨PKind.I, 0⟩).wire wo) j)) := by
      apply Finset.prod_congr rfl
      intro t _
      rw [List.getD_cons_succ]
    rw [hcong, List.getD_cons_zero, mul_comm]

theorem opWires_eq_map (op : Op) (hf : ((op.factors).map Atom.wire).Nodup) :
    opWires op = (op.factors).map Atom.wire := by
  rw [opWires, dedupF_eq_self hf]

theorem prod_acted_eq_factorsProd (op : Op) (wo : List Nat) (i j : Nat)
    (hf : ((op.factors).map Atom.wire).Nodup)
    (hsub : ∀ w ∈ opWires op, w ∈ wo) (hwo : wo.Nodup) :
    Finset.prod ((Finset.range wo.length).filter (fun k => wo.getD k 0 ∈ opWires op))
      (fun k => localEntry op (wo.getD k 0) (bitAt wo.length k i) (bitAt wo.length k j)) =
      factorsProd wo op.factors i j := by
  have hws := opWires_eq_map op hf
  have hwlen : (opWires op).length = op.factors.length := by
    rw [hws, List.length_map]
  have hnd : (opWires op).Nodup := by rw [hws]; exact hf
  have hgw : ∀ t, t < op.factors.length →
      (opWires op).getD t 0 = (op.factors.getD t ⟨PKind.I, 0⟩).wire := by
    intro t ht
    rw [hws, show (0 : Nat) = (⟨PKind.I, 0⟩ : Atom).wire from rfl]
    exact getD_map_wire op.factors ⟨PKind.I, 0⟩ t ht
  rw [factorsProd_eq_range]
  refine Finset.prod_nbij' (fun k => posIn (wo.getD k 0) (opWires op))
    (fun t => posIn ((op.factors.getD t ⟨PKind.I, 0⟩).wire) wo) ?_ ?_ ?_ ?_ ?_
  · intro k hk
    have hkm := (Finset.mem_filter.mp hk).2
    rw [Finset.mem_range, ← hwlen]
    exact posIn_lt_length hkm
  · intro t ht
    have htl := Finset.mem_range.mp ht
    have hwt : (op.factors.getD t ⟨PKind.I, 0⟩).wire ∈ opWires op := by
      rw [← hgw t htl]
      exact getD_mem_of_lt (by rw [hwlen]; exact htl)
    have hwin : (op.factors.getD t ⟨PKind.I, 0⟩).wire ∈ wo := hsub _ hwt
    rw [Finset.mem_filter, Finset.mem_range]
    refine ⟨posIn_lt_length hwin, ?_⟩
    rw [getD_posIn hwin]
    exact hwt
  · intro k hk
    have hkm := (Finset.mem_filter.mp hk).2
    have hkr := Finset.mem_range.mp (Finset.mem_filter.mp hk).1
    have hlt : posIn (wo.getD k 0) (opWires op) < op.factors.length := by
      rw [← hwlen]
      exact posIn_lt_length hkm
    dsimp only
    rw [← hgw _ hlt, getD_posIn hkm, posIn_getD hwo hkr]
  · intro t ht
    have htl := Finset.mem_range.mp ht
    have hwt : (op.factors.getD t ⟨PKind.I, 0⟩).wire ∈ opWires op := by
      rw [← hgw t htl]
      exact getD_mem_of_lt (by rw [hwlen]; exact htl)
    have hwin : (op.factors.getD t ⟨PKind.I, 0⟩).wire ∈ wo := hsub _ hwt
    dsimp only
    rw [getD_posIn hwin, ← hgw t htl, posIn_getD hnd (by rw [hwlen]; exact htl)]
  · intro k hk
    have hkm := (Finset.mem_filter.mp hk).2
    have hkr := Finset.mem_range.mp (Finset.mem_filter.mp hk).1
    have hlt : posIn (wo.getD k 0) (opWires op) < op.factors.length := by
      rw [← hwlen]
      exact posIn_lt_length hkm
    rw [localEntry, if_pos hkm]
    rw [getD_map_atomBlock op.factors ⟨PKind.I, 0⟩ _ hlt]
    rw [show ∀ a : Atom, (atomBlock a).entry = a.kind.mat from fun a => rfl]
    dsimp only
    rw [← hgw _ hlt, getD_posIn hkm, posIn_getD hwo hkr]

theorem expand_eq_wireProd (op : Op) (wo : List Nat) (i j : Nat)
    (hf : ((op.factors).map Atom.wire).Nodup)
    (hsub : ∀ w ∈ opWires op, w ∈ wo) (hwo : wo.Nodup)
    (hi : i < 2 ^ wo.length) (hj : j < 2 ^ wo.length) :
    expandEntry op wo i j = wireProd op wo i j := by
  have hws := opWires_eq_map op hf
  have hA : (opMatrixB op).entry (gatherIdx wo (opWires op) i)
      (gatherIdx wo (opWires op) j) = factorsProd wo op.factors i j := by
    rw [hws]
    cases hfs : op.factors with
    | nil =>
      rw [opMatrixB, hfs]
      simp [kronReduce, eyeB, gatherIdx, factorsProd]
    | cons f fs =>
      rw [opMatrixB, hfs,
        show (f :: fs).map atomBlock = atomBlock f :: fs.map atomBlock from rfl,
        kronReduce_entry]
      have := prodBlocks_atomBlocks wo (f :: fs) i j
      rw [show (f :: fs).map atomBlock = atomBlock f :: fs.map atomBlock from rfl] at this
      rw [this]
  have hdelta : Finset.prod ((Finset.range wo.length).filter
      (fun k => ¬ wo.getD k 0 ∈ opWires op))
      (fun k => localEntry op (wo.getD k 0) (bitAt wo.length k i) (bitAt wo.length k j)) =
      deltaNonActed (opWires op) wo i j := by
    rw [deltaNonActed, Finset.prod_filter]
    apply Finset.prod_congr rfl
    intro k _
    by_cases hk : wo.getD k 0 ∈ opWires op
    · rw [if_neg (not_not_intro hk), if_pos hk]
    · rw [if_pos hk, if_neg hk]
      simp only [localEntry]
      rw [if_neg hk]
  calc expandEntry op wo i j
      = deltaNonActed (opWires op) wo i j * factorsProd wo op.factors i j := by
        rw [expandEntry, hA]
    _ = wireProd op wo i j := by
        rw [wireProd_prod_range op wo i j hi hj,
          ← Finset.prod_filter_mul_prod_filter_not (Finset.range wo.length)
            (fun k => wo.getD k 0 ∈ opWires op),
          prod_acted_eq_factorsProd op wo i j hf hsub hwo, hdelta, mul_comm]

theorem sparseTerm_eq_expand (op : Op) (wo : List Nat) (i j : Nat)
    (hf : ((op.factors).map Atom.wire).Nodup)
    (hsub : ∀ w ∈ opWires op, w ∈ wo) (hwo : wo.Nodup)
    (hi : i < 2 ^ wo.length) (hj : j < 2 ^ wo.length) :
    (kronReduce (buildBlocks op wo 0)).entry i j = expandEntry op wo i j := by
  by_cases hwo0 : wo = []
  · subst hwo0
    have hi0 : i = 0 := by simpa [Nat.lt_one_iff] using hi
    have hj0 : j = 0 := by simpa [Nat.lt_one_iff] using hj
    subst hi0; subst hj0
    have hops : opWires op = [] := by
      cases hop : opWires op with
      | nil => rfl
      | cons w ws =>
        exfalso
        have := hsub w (by rw [hop]; exact List.mem_cons_self _ _)
        cases this
    have hfs : op.factors = [] := by
      cases hfc : op.factors with
      | nil => rfl
      | cons f fs =>
        exfalso
        have hw : f.wire ∈ opWires op :=
          wire_mem_opWires op f (by rw [hfc]; exact List.mem_cons_self _ _)
        rw [hops] at hw
        cases hw
    rw [show buildBlocks op [] 0 = [] from rfl]
    rw [expandEntry, hops, opMatrixB, hfs]
    simp [kronReduce, eyeB, gatherIdx, deltaNonActed]
  · obtain ⟨b, bs, hbb⟩ : ∃ b bs, buildBlocks op wo 0 = b :: bs := by
      cases hb : buildBlocks op wo 0 with
      | nil =>
        exfalso
        have hsz := sizesB_buildBlocks op wo 0
        rw [hb] at hsz
        have : wo.length = 0 := by
          simpa [sizesB] using hsz.symm
        exact hwo0 (List.length_eq_zero.mp this)
      | cons b bs => exact ⟨b, bs, rfl⟩
    rw [hbb, kronReduce_entry, ← hbb]
    rw [prodBlocks_buildBlocks op wo 0 i j (by rw [Nat.zero_add]; exact hi)
      (by rw [Nat.zero_add]; exact hj)]
    rw [Nat.div_eq_of_lt hi, Nat.div_eq_of_lt hj,
      Nat.mod_eq_of_lt hi, Nat.mod_eq_of_lt hj]
    rw [if_pos rfl, one_mul]
    exact (expand_eq_wireProd op wo i j hf hsub hwo hi hj).symm

theorem sparse_foldl_entry (wires : List Nat) (i j : Nat) :
    ∀ (terms : List (CQ × Op)) (acc : Block × List Block),
      (addB (terms.foldl (LinearCombination.sparseStep wires) acc).1
        (sumB wires.length (terms.foldl (LinearCombination.sparseStep wires) acc).2)).entry i j =
      (addB acc.1 (sumB wires.length acc.2)).entry i j +
        (terms.map (fun p => (sparseTermB wires p.1 p.2).entry i j)).sum := by
  intro terms
  induction terms with
  | nil =>
    intro acc
    simp
  | cons p rest ih =>
    intro acc
    rw [List.foldl_cons, ih (LinearCombination.sparseStep wires acc p)]
    have hstep : (addB (LinearCombination.sparseStep wires acc p).1
        (sumB wires.length (LinearCombination.sparseStep wires acc p).2)).entry i j =
        (addB acc.1 (sumB wires.length acc.2)).entry i j +
          (sparseTermB wires p.1 p.2).entry i j := by
      rw [LinearCombination.sparseStep]
      split
      · show (addB (addB acc.1 (sumB wires.length (acc.2 ++ [sparseTermB wires p.1 p.2])))
            (sumB wires.length [])).entry i j = _
        simp only [addB, sumB, List.map_append, List.sum_append, List.map_nil,
          List.sum_nil, List.map_cons, List.sum_cons]
        ring
      · show (addB acc.1 (sumB wires.length (acc.2 ++ [sparseTermB wires p.1 p.2]))).entry i j = _
        simp only [addB, sumB, List.map_append, List.sum_append, List.map_nil,
          List.sum_nil, List.map_cons, List.sum_cons]
        ring
    rw [hstep, List.map_cons, List.sum_cons]
    ring

/-- Claim C1: for every store whose operands are (tensor products of)
single-qubit Pauli-like factors on per-term distinct wires, and every wire
ordering for which both assemblies are legal (duplicate-free and covering
every acted wire), the dense `matrix(wire_order)` succeeds and agrees
exactly — hence elementwise within any tolerance, in particular 1e-8 —
with the sparse `sparse_matrix(wire_order)` on every entry of the
`2^W × 2^W` matrix. -/
theorem C1_dense_sparse_agree (lc : LinearCombination) (wo : List Nat)
    (hf : ∀ op ∈ lc.ops, ((op.factors).map Atom.wire).Nodup)
    (hsub : ∀ op ∈ lc.ops, ∀ w ∈ opWires op, w ∈ wo)
    (hwo : wo.Nodup) (i j : Nat) (hi : i < 2 ^ wo.length) (hj : j < 2 ^ wo.length) :
    lc.matrix (some wo) = Except.ok (denseBlock lc wo) ∧
    (denseBlock lc wo).entry i j = (lc.sparse_matrix (some wo)).entry i j := by
  constructor
  · show (if lc.ops.all (fun op => (opWires op).all (fun w => w ∈ wo)) then
        Except.ok (denseBlock lc wo) else Except.error LCError.incompleteWireOrder) = _
    rw [if_pos]
    rw [List.all_eq_true]
    intro op hop
    rw [List.all_eq_true]
    intro w hw
    exact decide_eq_true (hsub op hop w hw)
  · have hfold := sparse_foldl_entry wo i j (lc.coeffs.zip lc.ops) (zeroB wo.length, [])
    rw [show lc.sparse_matrix (some wo) = addB ((lc.coeffs.zip lc.ops).foldl
        (LinearCombination.sparseStep wo) (zeroB wo.length, [])).1
        (sumB wo.length ((lc.coeffs.zip lc.ops).foldl (LinearCombination.sparseStep wo)
          (zeroB wo.length, [])).2) from rfl]
    rw [hfold]
    have hinit : (addB (zeroB wo.length) (sumB wo.length [])).entry i j = 0 := by
      simp [addB, zeroB, sumB]
    rw [hinit, zero_add]
    rw [show (denseBlock lc wo).entry i j =
        ((lc.coeffs.zip lc.ops).map (fun p => p.1 * expandEntry p.2 wo i j)).sum from rfl]
    apply congrArg List.sum
    apply List.map_congr_left
    intro p hp
    obtain ⟨c, op⟩ := p
    obtain ⟨hc, hop⟩ := List.of_mem_zip hp
    show c * expandEntry op wo i j = (sparseTermB wo c op).entry i j
    rw [show (sparseTermB wo c op).entry i j =
        (kronReduce (buildBlocks op wo 0)).entry i j * c from rfl]
    rw [sparseTerm_eq_expand op wo i j (hf op hop) (hsub op hop) hwo hi hj]
    ring

/-- Sample two-term Pauli store `1*(Z0 Z1) - 0.45*(Y0 Z1)` (scenario 5). -/
def lcZZYZ : LinearCombination :=
  ⟨[⟨1, 0⟩, ⟨-(9 / 20 : ℚ), 0⟩],
   [Op.tensor [⟨PKind.Z, 0⟩, ⟨PKind.Z, 1⟩], Op.tensor [⟨PKind.Y, 0⟩, ⟨PKind.Z, 1⟩]],
   none⟩

/-- Claim C1 (witness): the scenario-5 store on wire order `[0, 1]` at the
entry (2, 1). -/
theorem C1_dense_sparse_agree_witness :
    (∀ op ∈ lcZZYZ.ops, ((op.factors).map Atom.wire).Nodup) ∧
    (∀ op ∈ lcZZYZ.ops, ∀ w ∈ opWires op, w ∈ [0, 1]) ∧
    ([0, 1] : List Nat).Nodup ∧ 2 < 2 ^ ([0, 1] : List Nat).length ∧
    1 < 2 ^ ([0, 1] : List Nat).length ∧
    (lcZZYZ.matrix (some [0, 1]) = Except.ok (denseBlock lcZZYZ [0, 1]) ∧
     (denseBlock lcZZYZ [0, 1]).entry 2 1 = (lcZZYZ.sparse_matrix (some [0, 1])).entry 2 1) :=
  ⟨by decide, by decide, by decide, by decide, by decide,
   C1_dense_sparse_agree lcZZYZ [0, 1] (by decide) (by decide) (by decide) 2 1
     (by decide) (by decide)⟩

theorem CQ.one_re : (1 : CQ).re = 1 := rfl

theorem CQ.one_im : (1 : CQ).im = 0 := rfl

/-- Claim C8 (counterexample): a wire ordering that omits an acted wire
does not make `sparse_matrix` fail: for the one-term store `1 * Z(1)` and
the ordering `[0]`, the sparse path silently returns the 2×2 identity
matrix (the Z factor on the missing wire is skipped by the walk), instead
of the ValueError-class failure the claim asserts. -/
theorem C8_sparse_silent_counterexample :
    ((⟨[⟨1, 0⟩], [opZ1], none⟩ : LinearCombination).sparse_matrix (some [0])).n = 1 ∧
    ((⟨[⟨1, 0⟩], [opZ1], none⟩ : LinearCombination).sparse_matrix (some [0])).entry 0 0 = 1 ∧
    ((⟨[⟨1, 0⟩], [opZ1], none⟩ : LinearCombination).sparse_matrix (some [0])).entry 0 1 = 0 ∧
    ((⟨[⟨1, 0⟩], [opZ1], none⟩ : LinearCombination).sparse_matrix (some [0])).entry 1 0 = 0 ∧
    ((⟨[⟨1, 0⟩], [opZ1], none⟩ : LinearCombination).sparse_matrix (some [0])).entry 1 1 = 1 := by
  refine ⟨rfl, ?_, ?_, ?_, ?_⟩ <;>
    norm_num [LinearCombination.sparse_matrix, LinearCombination.sparseStep, sparseTermB,
      buildBlocks, kronReduce, eyeB, zeroB, addB, sumB, opWires, dedupF, Op.factors, opZ1,
      CQ.mul_def, CQ.add_def, CQ.zero_def, CQ.one_def, CQ.ext_iff, CQ.one_re, CQ.one_im, prodBlocks, sizesB]

/-- Claim C8 (amended): when the supplied wire ordering omits a wire the
store acts on, the dense `matrix(wire_order)` fails with a
ValueError-class error (raised by the spec-modelled `expand_matrix` wire
resolution), while `sparse_matrix(wire_order)` performs no validation at
all: it returns a `2^W × 2^W` matrix over the supplied ordering, silently
skipping the factors on the missing wires. -/
theorem C8_incomplete_wire_order (lc : LinearCombination) (wo : List Nat)
    (h : lc.ops.all (fun op => (opWires op).all (fun w => w ∈ wo)) = false) :
    lc.matrix (some wo) = Except.error LCError.incompleteWireOrder ∧
    (lc.sparse_matrix (some wo)).n = wo.length := by
  constructor
  · show (if lc.ops.all (fun op => (opWires op).all (fun w => w ∈ wo)) then
        Except.ok (denseBlock lc wo) else Except.error LCError.incompleteWireOrder) = _
    rw [if_neg]
    simp [h]
  · have hkeep : ∀ (terms : List (CQ × Op)) (acc : Block × List Block),
        ((terms.foldl (LinearCombination.sparseStep wo) acc).1).n = acc.1.n := by
      intro terms
      induction terms with
      | nil => intro acc; rfl
      | cons p rest ih =>
        intro acc
        rw [List.foldl_cons, ih]
        show (LinearCombination.sparseStep wo acc p).1.n = acc.1.n
        rw [LinearCombination.sparseStep]
        split
        · rfl
        · rfl
    show (addB ((lc.coeffs.zip lc.ops).foldl (LinearCombination.sparseStep wo)
        (zeroB wo.length, [])).1 _).n = wo.length
    rw [show ∀ (A B : Block), (addB A B).n = A.n from fun A B => rfl]
    rw [hkeep]
    rfl

/-- Claim C8 (witness): the store `1 * Z(1)` with wire ordering `[0]`. -/
theorem C8_incomplete_wire_order_witness :
    (⟨[⟨1, 0⟩], [opZ1], none⟩ : LinearCombination).ops.all
      (fun op => (opWires op).all (fun w => w ∈ [0])) = false ∧
    ((⟨[⟨1, 0⟩], [opZ1], none⟩ : LinearCombination).matrix (some [0]) =
        Except.error LCError.incompleteWireOrder ∧
      ((⟨[⟨1, 0⟩], [opZ1], none⟩ : LinearCombination).sparse_matrix (some [0])).n =
        ([0] : List Nat).length) :=
  ⟨by decide, C8_incomplete_wire_order ⟨[⟨1, 0⟩], [opZ1], none⟩ [0] (by decide)⟩
